import Mathlib

/-
Verification development for the ohos-json-bignumber repository: a shallow
embedding, in Lean, of its JSON parser (src/parse.rs), its JSON stringifier
(src/stringify.rs) and its BigNumber wrapper around the bigdecimal crate
(src/bignumber.rs), together with theorems settling the specification claims.

Host (N-API / ECMAScript engine) values are modelled by the inductive type
Value below; operations the code delegates to the host or to the bigdecimal
and num-bigint crates are modelled from their documented semantics, as noted
in the doc comment of each such definition.
-/

set_option maxRecDepth 8000

namespace Ohos

/-! ### Character helpers -/

/-- Models Rust char::is_ascii_digit, the test used by the parser for the
characters 0 through 9 (code points 48 to 57). -/
def isDigitC (c : Char) : Bool := 48 ≤ c.toNat && c.toNat ≤ 57

/-- Models Rust char::is_whitespace: true exactly on the code points carrying
the Unicode White_Space property (U+0009..U+000D, U+0020, U+0085, U+00A0,
U+1680, U+2000..U+200A, U+2028, U+2029, U+202F, U+205F, U+3000). -/
def rustIsWhitespace (c : Char) : Bool :=
  let n := c.toNat
  (9 ≤ n && n ≤ 13) || n == 32 || n == 133 || n == 160 || n == 5760 ||
  (8192 ≤ n && n ≤ 8202) || n == 8232 || n == 8233 || n == 8239 ||
  n == 8287 || n == 12288

/-- Decimal digits of a natural number, most significant first, accumulated
with explicit fuel so that the kernel can evaluate it (the fuel is always
sufficient because the digit count of n is at most n). -/
def natDecAux : Nat → Nat → List Char → List Char
  | 0, _, acc => acc
  | f+1, n, acc =>
    let d : Char := Char.ofNat (48 + n % 10)
    if n < 10 then d :: acc else natDecAux f (n / 10) (d :: acc)

/-- Decimal representation of a natural number ("0" for 0, no leading zeros). -/
def natDec (n : Nat) : List Char := natDecAux (n + 1) n []

/-- Decimal representation of an integer, with a leading minus sign when
negative; this is the base-10 text form shared by Rust integer Display,
num-bigint Display and ECMAScript BigInt::toString. -/
def intDec (n : Int) : List Char :=
  if n < 0 then '-' :: natDec n.natAbs else natDec n.toNat

/-- Value of a list of decimal digit characters, most significant first
(Horner fold, matching left-to-right accumulation of digit parsers). -/
def decDigitsVal (ds : List Char) : Nat :=
  ds.foldl (fun a c => 10 * a + (c.toNat - 48)) 0

def allDigits (ds : List Char) : Bool := ds.all isDigitC

/-- Strips one leading sign character, as the integer parsers of Rust core
and num-bigint do: returns (isNegative, remaining characters). -/
def splitSign (l : List Char) : Bool × List Char :=
  match l with
  | [] => (false, [])
  | c :: t => if c = '-' then (true, t) else if c = '+' then (false, t) else (false, c :: t)

/-- Models the shared value semantics of Rust's decimal integer parsers
(str::parse for machine integers before their range check, and num-bigint's
from_str_radix in base 10): an optional sign followed by at least one ASCII
decimal digit; anything else fails. -/
def signedDecVal? (cs : List Char) : Option Int :=
  let (neg, ds) := splitSign cs
  if ds.isEmpty then none
  else if allDigits ds then
    some (if neg then -(decDigitsVal ds : Int) else (decDigitsVal ds : Int))
  else none

/-- Models str::parse::<i64>: the textual grammar of signedDecVal? plus the
int64 range check (Rust's checked accumulation fails exactly when the value
falls outside the range). -/
def parseI64 (cs : List Char) : Option Int :=
  match signedDecVal? cs with
  | some v => if -9223372036854775808 ≤ v ∧ v ≤ 9223372036854775807 then some v else none
  | none => none

/-- Models num-bigint's BigInt::from_str_radix in base 10 (used by the parser
for integer literals): unbounded, so just the textual grammar. -/
def parseBigIntDec (cs : List Char) : Option Int := signedDecVal? cs

/-- Value of one hexadecimal digit character (both cases), as accepted by
u32::from_str_radix(s, 16). -/
def hexDigitVal? (c : Char) : Option Nat :=
  let n := c.toNat
  if 48 ≤ n ∧ n ≤ 57 then some (n - 48)
  else if 97 ≤ n ∧ n ≤ 102 then some (n - 87)
  else if 65 ≤ n ∧ n ≤ 70 then some (n - 55)
  else none

def hexVal? : List Char → Option Nat
  | [] => some 0
  | c :: t =>
    match hexDigitVal? c, hexVal? t with
    | some d, some v => some (d * 16 ^ t.length + v)
    | _, _ => none

/-- Models u32::from_str_radix(s, 16): an optional sign followed by at least
one hex digit; a minus sign is only accepted for the value zero, and values
of 2^32 or more overflow. -/
def parseHexU32 (cs : List Char) : Option Nat :=
  let (neg, ds) := splitSign cs
  if ds.isEmpty then none
  else
    match hexVal? ds with
    | none => none
    | some v =>
      if neg then (if v = 0 then some 0 else none)
      else if v < 4294967296 then some v else none

/-- Models std::char::from_u32: succeeds exactly on Unicode scalar values,
i.e. code points below 0xD800 or in 0xE000..0x10FFFF; in particular it
rejects every surrogate code point 0xD800..0xDFFF. -/
def charFromU32 (n : Nat) : Option Char :=
  if n < 55296 ∨ (57344 ≤ n ∧ n ≤ 1114111) then some (Char.ofNat n) else none

/-- Uppercase hex digit, as produced by Rust's {:X} formatting. -/
def hexDigitChar (n : Nat) : Char :=
  if n < 10 then Char.ofNat (48 + n) else Char.ofNat (55 + n)

/-- The four-character uppercase zero-padded hex form produced by the
stringifier's write!(output, "\\u{:04X}", c) for code points below 0x10000. -/
def hex4 (n : Nat) : List Char :=
  [hexDigitChar (n / 4096 % 16), hexDigitChar (n / 256 % 16),
   hexDigitChar (n / 16 % 16), hexDigitChar (n % 16)]

/-! ### Options and errors -/

/-- Models the Options struct of src/options.rs: three optional flags. -/
structure Options where
  alwaysParseAsBig : Option Bool
  useNativeBigInt : Option Bool
  parseFloatAsBig : Option Bool
deriving DecidableEq

/-- Options::default(): every flag absent. -/
def defaultOptions : Options := ⟨none, none, none⟩

/-- Models Option::is_some_and(|e| *e) on an Option<bool>. -/
def isSomeAndTrue : Option Bool → Bool
  | some b => b
  | none => false

/-- Models the ParseError enum of src/error.rs, plus invalidArg for the napi
errors the parser builds directly with Status::InvalidArg (their message
text, taken from the underlying bigdecimal/num-bigint error, is elided). -/
inductive ParseError where
  | unexpectedCharacter (c : Char)
  | unexpectedEndOfInput
  | invalidNumber
  | invalidEscapeSequence (c : Char)
  | expectedColon
  | expectedCommaOrEnd
  | trailingCharacters
  | invalidArg
deriving DecidableEq

/-! ### The BigDecimal model

Models the subset of the bigdecimal crate used by src/bignumber.rs and
src/parse.rs. A BigDecimal is an arbitrary-precision integer coefficient
together with a base-10 scale; the represented value is intVal / 10^scale. -/

structure BigDec where
  intVal : Int
  scale : Int
deriving DecidableEq

/-- Splits a character list at the first occurrence of 'e' or 'E', returning
the prefix and, when found, the suffix after the separator. -/
def splitAtExpChar : List Char → List Char × Option (List Char)
  | [] => ([], none)
  | c :: t =>
    if c = 'e' ∨ c = 'E' then ([], some t)
    else
      let (a, b) := splitAtExpChar t
      (c :: a, b)

/-- Splits a character list at the first '.', returning the prefix and, when
found, the suffix after the dot. -/
def splitAtDot : List Char → List Char × Option (List Char)
  | [] => ([], none)
  | c :: t =>
    if c = '.' then ([], some t)
    else
      let (a, b) := splitAtDot t
      (c :: a, b)

/-- Models BigDecimal::from_str_radix in base 10 (also reached through
BigDecimal::from_str): split at the first e/E and parse the suffix as a
signed integer exponent; split the base part at the first '.'; concatenate
the digits around the dot and parse them (with optional sign) as a big
integer; the scale is the fractional digit count minus the exponent.
The crate parses the exponent into a fixed-width integer whose overflow is
not modelled (it needs an exponent text of 19 or more digits). -/
def bigDecFromStr (cs : List Char) : Option BigDec :=
  let (base, expPart) := splitAtExpChar cs
  let expVal? : Option Int :=
    match expPart with
    | none => some 0
    | some es => signedDecVal? es
  match expVal? with
  | none => none
  | some e =>
    if base.isEmpty then none
    else
      let (lead, frac?) := splitAtDot base
      let (digits, fracLen) : List Char × Int :=
        match frac? with
        | some tr => (lead ++ tr, (tr.length : Int))
        | none => (lead, 0)
      match parseBigIntDec digits with
      | none => none
      | some v => some ⟨v, fracLen - e⟩

/-- Models BigDecimal addition: align the two coefficients to the larger
scale and add them. -/
def bigPlus (a b : BigDec) : BigDec :=
  if b.scale ≤ a.scale then
    ⟨a.intVal + b.intVal * (10 : Int) ^ (a.scale - b.scale).toNat, a.scale⟩
  else
    ⟨a.intVal * (10 : Int) ^ (b.scale - a.scale).toNat + b.intVal, b.scale⟩

/-- Models BigNumber::compared_to (src/bignumber.rs), built on BigDecimal's
Ord instance, which orders by represented real value: returns -1, 0 or 1. -/
def comparedTo (a b : BigDec) : Int :=
  let s := max a.scale b.scale
  let l := a.intVal * (10 : Int) ^ (s - a.scale).toNat
  let r := b.intVal * (10 : Int) ^ (s - b.scale).toNat
  if l < r then -1 else if l = r then 0 else 1

def digits10 (n : Nat) : Nat := (natDec n).length

/-- The numerator-shifting loop at the start of the crate's impl_division:
while the numerator is smaller than the denominator, multiply it by 10 and
increase the scale. The fuel passed by implDivision always suffices. -/
def divShift : Nat → Nat → Nat → Int → Nat × Int
  | 0, n, _, s => (n, s)
  | f+1, n, d, s => if n < d then divShift f (n * 10) d (s + 1) else (n, s)

/-- The digit-producing loop of impl_division: r is the running remainder
already multiplied by 10, p the current significant-digit count; stops at
100 significant digits (the crate's DEFAULT_PRECISION) or a zero remainder. -/
def divLoop : Nat → Nat → Nat → Nat → Nat → Int → Nat × Nat × Int
  | 0, q, r, _, _, s => (q, r, s)
  | f+1, q, r, d, p, s =>
    if p < 100 ∧ r ≠ 0 then divLoop f (q * 10 + r / d) (r % d * 10) d (p + 1) (s + 1)
    else (q, r, s)

/-- Models the crate's impl_division on positive magnitudes: shift the
numerator up to the denominator, take the integer quotient, then produce
further digits up to 100 significant digits; if a nonzero remainder is left
the last digit is rounded up when the next digit would be 5 or more
(get_rounding_term). Returns the magnitude of the coefficient and scale. -/
def implDivision (num den : Nat) (scale : Int) : Nat × Int :=
  let (n1, s1) := divShift (digits10 den + 1) num den scale
  let q0 := n1 / den
  let r0 := n1 % den
  if r0 = 0 then (q0, s1)
  else
    let (q1, r1, s2) := divLoop 110 q0 (r0 * 10) den (digits10 q0) s1
    if r1 ≠ 0 then (q1 + (if 5 ≤ r1 / den then 1 else 0), s2) else (q1, s2)

/-- Models BigDecimal division (used by BigNumber::divided_by and
divided_to_integer_by). Division by zero panics in the crate, modelled as
none. A zero dividend returns itself. The crate's value-preserving shortcut
for a divisor equal to one is elided; it affects only the coefficient/scale
representation, never the represented value. -/
def bigDiv (a b : BigDec) : Option BigDec :=
  if b.intVal = 0 then none
  else if a.intVal = 0 then some a
  else
    let sgn : Int := if (a.intVal < 0) = (b.intVal < 0) then 1 else -1
    let (q, s) := implDivision a.intVal.natAbs b.intVal.natAbs (a.scale - b.scale)
    some ⟨sgn * q, s⟩

/-- Models BigDecimal::round(0) (used by divided_to_integer_by and
integer_value): drop the fractional digits, rounding half to even, the
crate's default rounding mode; a nonpositive scale is padded out with
zeros. -/
def bigRound0 (a : BigDec) : BigDec :=
  if a.scale ≤ 0 then ⟨a.intVal * (10 : Int) ^ (-a.scale).toNat, 0⟩
  else
    let p : Nat := 10 ^ a.scale.toNat
    let m := a.intVal.natAbs
    let q := m / p
    let r := m % p
    let q' := if 2 * r < p then q
      else if p < 2 * r then q + 1
      else if q % 2 = 0 then q else q + 1
    ⟨if a.intVal < 0 then -(q' : Int) else (q' : Int), 0⟩

/-- Models BigNumber::divided_to_integer_by (src/bignumber.rs): divide, then
round the quotient to scale 0. -/
def dividedToIntegerBy (a b : BigDec) : Option BigDec :=
  (bigDiv a b).map bigRound0

/-- Models bigdecimal's write_scientific_notation, the Display form of
BigNumber (src/bignumber.rs impl Display) and the text the stringifier
embeds for BigNumber values: zero prints as 0e0; otherwise an optional
minus sign, the leading coefficient digit, a dot and the remaining digits
when there are any, then e and the signed exponent
(digit count - 1 - scale). -/
def sciNot (d : BigDec) : List Char :=
  if d.intVal = 0 then ['0', 'e', '0']
  else
    let ds := natDec d.intVal.natAbs
    let mant : List Char :=
      match ds with
      | [] => []
      | c :: rest => if rest.isEmpty then [c] else c :: '.' :: rest
    (if d.intVal < 0 then ['-'] else []) ++
      mant ++ 'e' :: intDec ((ds.length : Int) - 1 - d.scale)

/-- Models BigNumber's toString (src/bignumber.rs to_string_js), which calls
the Display implementation, i.e. write_scientific_notation. -/
def bigToString (d : BigDec) : String := String.mk (sciNot d)

/-! ### Finite binary64 values

A finite double is represented exactly as sig * 2^exp with sig odd (or
sig = 0 and exp = 0), a canonical form, so equality of representations is
equality of values. str::parse::<f64> is modelled by its documented
contract: the accepted grammar, and a correctly rounded (round to nearest,
ties to even) result, overflowing to infinity, which the caller's
is_finite() check turns into the none outcome below. -/

/-- Bit length of a natural number (0 for 0), computed in large chunks so
the kernel can evaluate it on numbers of many thousand bits. -/
def bitLenA : Nat → Nat → Nat → Nat
  | 0, _, acc => acc
  | f+1, n, acc =>
    if 2 ^ 512 ≤ n then bitLenA f (n / 2 ^ 512) (acc + 512)
    else if 2 ^ 64 ≤ n then bitLenA f (n / 2 ^ 64) (acc + 64)
    else if 2 ≤ n then bitLenA f (n / 2) (acc + 1)
    else if n = 1 then acc + 1 else acc

def bitLen (n : Nat) : Nat := bitLenA n n 0

/-- Whether n/d < 2^e, for positive naturals n, d and a signed exponent. -/
def ratLtTwoPow (n d : Nat) (e : Int) : Bool :=
  if 0 ≤ e then n < d * 2 ^ e.toNat else n * 2 ^ (-e).toNat < d

/-- Round a/b to the nearest integer, ties to even. -/
def rheDiv (a b : Nat) : Nat :=
  let q := a / b
  let r := a % b
  if 2 * r < b then q
  else if b < 2 * r then q + 1
  else if q % 2 = 0 then q else q + 1

/-- Correctly rounds the positive rational n/d to binary64 precision:
returns the significand and power-of-two exponent of the nearest
representable value (ties to even, subnormals included), or none when the
rounded magnitude reaches 2^1024, i.e. the conversion overflows to
infinity. -/
def roundToF64 (n d : Nat) : Option (Nat × Int) :=
  let e0 : Int := (bitLen n : Int) - (bitLen d : Int)
  let e : Int := if ratLtTwoPow n d e0 then e0 else e0 + 1
  let q : Int := max (e - 53) (-1074)
  let sig : Nat :=
    if 0 ≤ q then rheDiv n (d * 2 ^ q.toNat) else rheDiv (n * 2 ^ (-q).toNat) d
  if sig = 0 then some (0, 0)
  else if 0 ≤ q ∧ 2 ^ 1024 ≤ sig * 2 ^ q.toNat then none
  else some (sig, q)

/-- Strips factors of two from the significand to reach the canonical
(odd significand) form; 60 units of fuel cover the at most 53 bits. -/
def stripTwos : Nat → Nat → Int → Nat × Int
  | 0, s, q => (s, q)
  | f+1, s, q => if s % 2 = 0 ∧ s ≠ 0 then stripTwos f (s / 2) (q + 1) else (s, q)

def spanDigits (l : List Char) : List Char × List Char :=
  (l.takeWhile isDigitC, l.dropWhile isDigitC)

/-- Models str::parse::<f64> combined with the is_finite() check of
src/parse.rs: the grammar is an optional sign, digits with an optional dot
(at least one digit overall), and an optional e/E exponent with optional
sign and mandatory digits; the value is correctly rounded to binary64, and
none is returned when the text is rejected or the result is not finite.
The inf/infinity/nan spellings of the Rust grammar are unreachable here
because the number scanner only emits digits, sign characters, dots and
e/E. -/
def rustParseF64 (cs : List Char) : Option (Int × Int) :=
  let (neg, r0) := splitSign cs
  let (d1, r1) := spanDigits r0
  let (d2, r2) : List Char × List Char :=
    match r1 with
    | '.' :: t => spanDigits t
    | _ => ([], r1)
  if (d1 ++ d2).isEmpty then none
  else
    let e? : Option Int :=
      match r2 with
      | [] => some 0
      | c :: t =>
        if c = 'e' ∨ c = 'E' then
          let (eneg, t1) := splitSign t
          let (ed, t2) := spanDigits t1
          if ed.isEmpty ∨ ¬ t2.isEmpty then none
          else some (if eneg then -(decDigitsVal ed : Int) else (decDigitsVal ed : Int))
        else none
    match e? with
    | none => none
    | some e10 =>
      let m := decDigitsVal (d1 ++ d2)
      let exp10 : Int := e10 - d2.length
      if m = 0 then some (0, 0)
      else
        let (n, d) : Nat × Nat :=
          if 0 ≤ exp10 then (m * 10 ^ exp10.toNat, 1) else (m, 10 ^ (-exp10).toNat)
        match roundToF64 n d with
        | none => none
        | some (sig, q) =>
          let (s1, q1) := stripTwos 60 sig q
          some (if neg then -(s1 : Int) else (s1 : Int), q1)

/-! ### The host value model

Models the N-API value graphs the parser produces and the stringifier
consumes: the Value variants of the specification's data model. A number
produced by env.create_double is represented by its exact significand and
exponent; env.create_int64 always receives a safe integer here, kept as a
separate variant as in the specification; strings are sequences of Unicode
scalar values; an object is its own-property list in the host's enumeration
order. -/

mutual
inductive Value where
  | null : Value
  | boolean (b : Bool) : Value
  | number (sig : Int) (exp : Int) : Value
  | safeInteger (n : Int) : Value
  | bigInteger (n : Int) : Value
  | decimal (d : BigDec) : Value
  | string (s : String) : Value
  | array (elems : VList) : Value
  | object (entries : OList) : Value
inductive VList where
  | nil : VList
  | cons (v : Value) (t : VList) : VList
inductive OList where
  | nil : OList
  | cons (k : String) (v : Value) (t : OList) : OList
end

def okeys : OList → List String
  | .nil => []
  | .cons k _ t => k :: okeys t

def olookup : OList → String → Option Value
  | .nil, _ => none
  | .cons k' v t, k => if k' = k then some v else olookup t k

def oappend : OList → OList → OList
  | .nil, o => o
  | .cons k v t, o => .cons k v (oappend t o)

/-- Whether a string is an ECMAScript array index: the canonical decimal
form (no sign, no redundant leading zero) of a natural number below
2^32 - 1. Such property keys enumerate in ascending numeric order before
all other string keys. -/
def arrayIndex? (s : String) : Option Nat :=
  match s.data with
  | [] => none
  | c :: t =>
    if allDigits (c :: t) then
      if c = '0' ∧ ¬ t.isEmpty then none
      else
        let v := decDigitsVal (c :: t)
        if v < 4294967295 then some v else none
    else none

/-- Models obj.set_named_property on an ordinary ECMAScript object, the
operation the object parser uses for every key/value pair: assigning to an
existing key overwrites its value in place (the key keeps its enumeration
position), a new array-index key is inserted in ascending numeric position
before all non-index keys, and any other new key is appended at the end. -/
def setProp : OList → String → Value → OList
  | .nil, k, v => .cons k v .nil
  | .cons k' v' t, k, v =>
    if k' = k then .cons k' v t
    else
      match arrayIndex? k with
      | some n =>
        match arrayIndex? k' with
        | some m =>
          if n < m then .cons k v (.cons k' v' t) else .cons k' v' (setProp t k v)
        | none => .cons k v (.cons k' v' t)
      | none => .cons k' v' (setProp t k v)

/-! ### The parser (src/parse.rs) -/

/-- Models JsonParser::skip_whitespace: drop characters while Rust's
char::is_whitespace holds. -/
def skipWs (s : List Char) : List Char := s.dropWhile rustIsWhitespace

/-- Models JsonParser::expect_char. -/
def expectChar (c : Char) : List Char → Except ParseError (List Char)
  | [] => .error .unexpectedEndOfInput
  | x :: t => if x = c then .ok t else .error (.unexpectedCharacter x)

/-- Models JsonParser::expect_str. -/
def expectStr : List Char → List Char → Except ParseError (List Char)
  | [], s => .ok s
  | c :: cs, s =>
    match expectChar c s with
    | .error e => .error e
    | .ok t => expectStr cs t

mutual
/-- Models the character loop of JsonParser::parse_string, after the opening
quote: raw characters are taken as they are until an unescaped closing
quote; a backslash hands off to the escape decoder below. Returns the
decoded characters and the rest of the input. -/
def parseStrBody : List Char → Except ParseError (List Char × List Char)
  | [] => .error .unexpectedEndOfInput
  | c :: t =>
    if c = '"' then .ok ([], t)
    else if c = '\\' then parseEscape t
    else (parseStrBody t).map (fun p => (c :: p.1, p.2))

/-- Models the escape match of parse_string: the named single-character
escapes, the \\uXXXX escape, InvalidEscapeSequence for any other escape
character, and UnexpectedEndOfInput when the input ends mid-escape. -/
def parseEscape : List Char → Except ParseError (List Char × List Char)
  | [] => .error .unexpectedEndOfInput
  | e :: t1 =>
    if e = '"' then (parseStrBody t1).map (fun p => ('"' :: p.1, p.2))
    else if e = '\\' then (parseStrBody t1).map (fun p => ('\\' :: p.1, p.2))
    else if e = '/' then (parseStrBody t1).map (fun p => ('/' :: p.1, p.2))
    else if e = 'b' then (parseStrBody t1).map (fun p => ('\x08' :: p.1, p.2))
    else if e = 'f' then (parseStrBody t1).map (fun p => ('\x0c' :: p.1, p.2))
    else if e = 'n' then (parseStrBody t1).map (fun p => ('\n' :: p.1, p.2))
    else if e = 'r' then (parseStrBody t1).map (fun p => ('\r' :: p.1, p.2))
    else if e = 't' then (parseStrBody t1).map (fun p => ('\t' :: p.1, p.2))
    else if e = 'u' then parseUnicode t1
    else .error (.invalidEscapeSequence e)

/-- Models the \\uXXXX arm: read_n_chars(4) (UnexpectedEndOfInput when fewer
than four characters remain), u32::from_str_radix in base 16, and
std::char::from_u32, both failures reported as InvalidEscapeSequence('u'). -/
def parseUnicode : List Char → Except ParseError (List Char × List Char)
  | h1 :: h2 :: h3 :: h4 :: t2 =>
    (match parseHexU32 [h1, h2, h3, h4] with
     | none => .error (.invalidEscapeSequence 'u')
     | some code =>
       match charFromU32 code with
       | none => .error (.invalidEscapeSequence 'u')
       | some ch => (parseStrBody t2).map (fun p => (ch :: p.1, p.2)))
  | _ => .error .unexpectedEndOfInput
end

/-- Models JsonParser::parse_string: the opening quote then the body. -/
def parseStrLit (s : List Char) : Except ParseError (List Char × List Char) :=
  match expectChar '"' s with
  | .error e => .error e
  | .ok t => parseStrBody t

/-- Models the scanning while-loop of JsonParser::parse_number: greedily
consume digits, at most one dot (only before any exponent), and at most one
e/E which may be followed by one sign character; returns the consumed
characters, the fractional-part and exponent flags, and the rest. The
source consumes the optional sign by peeking right after the e; here that
one-character lookahead is encoded by the allowSign state, which is set
exactly by the e branch and cleared by every other consumed character. -/
def scanNumA : List Char → Bool → Bool → Bool → List Char × Bool × Bool × List Char
  | [], hd, he, _ => ([], hd, he, [])
  | c :: cs, hd, he, allowSign =>
    if isDigitC c then
      let p := scanNumA cs hd he false
      (c :: p.1, p.2)
    else if c = '.' ∧ ¬ hd ∧ ¬ he then
      let p := scanNumA cs true he false
      (c :: p.1, p.2)
    else if (c = 'e' ∨ c = 'E') ∧ ¬ he then
      let p := scanNumA cs hd true true
      (c :: p.1, p.2)
    else if (c = '+' ∨ c = '-') ∧ allowSign = true then
      let p := scanNumA cs hd he false
      (c :: p.1, p.2)
    else ([], hd, he, c :: cs)

def scanNum (cs : List Char) (hd he : Bool) : List Char × Bool × Bool × List Char :=
  scanNumA cs hd he false

/-- The number scan including the optional single leading minus sign that
parse_number consumes before its loop: returns the full literal text, the
two flags, and the rest of the input. -/
def scanNumberFull (s : List Char) : List Char × Bool × Bool × List Char :=
  match s with
  | [] => scanNum [] false false
  | c :: t =>
    if c = '-' then
      let p := scanNum t false false
      ('-' :: p.1, p.2)
    else scanNum (c :: t) false false

/-- Models JsonParser::parse_number after the scan: a literal with a
fractional part or exponent becomes a BigNumber Decimal when
parse_float_as_big is set (errors from BigDecimal::from_str surface as
InvalidArg napi errors), otherwise a Number when the literal is a finite
double and Null when it is not; a pure integer literal becomes a safe
integer via str::parse::<i64> when always_parse_as_big is unset and the
value's magnitude is at most 2^53 - 1, and otherwise a BigInt built from
num-bigint's parse (whose errors also surface as InvalidArg). -/
def parseNumberV (opts : Options) (s : List Char) : Except ParseError (Value × List Char) :=
  let (numStr, hd, he, rest) := scanNumberFull s
  if hd || he then
    if isSomeAndTrue opts.parseFloatAsBig then
      match bigDecFromStr numStr with
      | some d => .ok (.decimal d, rest)
      | none => .error .invalidArg
    else
      match rustParseF64 numStr with
      | some (sg, q) => .ok (.number sg q, rest)
      | none => .ok (.null, rest)
  else
    let fits : Option Int :=
      if isSomeAndTrue opts.alwaysParseAsBig then none
      else
        match parseI64 numStr with
        | some v =>
          if -9007199254740991 ≤ v ∧ v ≤ 9007199254740991 then some v else none
        | none => none
    match fits with
    | some v => .ok (.safeInteger v, rest)
    | none =>
      match parseBigIntDec numStr with
      | some n => .ok (.bigInteger n, rest)
      | none => .error .invalidArg

mutual
/-- Models JsonParser::parse_value: skip whitespace and dispatch on the next
character (n/t/f/quote/bracket/brace/digit-or-minus), with the array and
object empty checks and element loops of parse_array and parse_object. The
Nat argument is recursion fuel; parseJson below supplies input length + 1,
which always suffices because every nested call and every loop iteration
consumes at least one input character. -/
def parseValueF : Nat → Options → List Char → Except ParseError (Value × List Char)
  | 0, _, _ => .error .unexpectedEndOfInput
  | f+1, opts, s =>
    match skipWs s with
    | [] => .error .unexpectedEndOfInput
    | c :: t =>
      if c = 'n' then (expectStr "null".data (c :: t)).map (fun r => (.null, r))
      else if c = 't' then (expectStr "true".data (c :: t)).map (fun r => (.boolean true, r))
      else if c = 'f' then (expectStr "false".data (c :: t)).map (fun r => (.boolean false, r))
      else if c = '"' then (parseStrBody t).map (fun p => (.string (String.mk p.1), p.2))
      else if c = '[' then
        match skipWs t with
        | ']' :: t2 => .ok (.array .nil, t2)
        | s1 => (parseArrElemsF f opts s1).map (fun p => (.array p.1, p.2))
      else if c = '\x7b' then
        match skipWs t with
        | b :: t2 =>
          if b = '\x7d' then .ok (.object .nil, t2)
          else (parseObjEntriesF f opts .nil (b :: t2)).map (fun p => (.object p.1, p.2))
        | [] => (parseObjEntriesF f opts .nil []).map (fun p => (.object p.1, p.2))
      else if isDigitC c || c = '-' then parseNumberV opts (c :: t)
      else .error (.unexpectedCharacter c)

/-- The element loop of JsonParser::parse_array (entered on a nonempty
array): parse a value, then a comma continues and a closing bracket stops. -/
def parseArrElemsF : Nat → Options → List Char → Except ParseError (VList × List Char)
  | 0, _, _ => .error .unexpectedEndOfInput
  | f+1, opts, s =>
    match parseValueF f opts s with
    | .error e => .error e
    | .ok (v, s1) =>
      match skipWs s1 with
      | [] => .error .unexpectedEndOfInput
      | c :: s2 =>
        if c = ',' then
          match parseArrElemsF f opts (skipWs s2) with
          | .error e => .error e
          | .ok (l, r) => .ok (.cons v l, r)
        else if c = ']' then .ok (.cons v .nil, s2)
        else .error (.unexpectedCharacter c)

/-- The member loop of JsonParser::parse_object (entered on a nonempty
object): parse a string key, a colon, a value; assign the pair into the
object with set_named_property; a comma continues and a closing brace
stops. -/
def parseObjEntriesF : Nat → Options → OList → List Char → Except ParseError (OList × List Char)
  | 0, _, _, _ => .error .unexpectedEndOfInput
  | f+1, opts, obj, s =>
    match parseStrLit s with
    | .error e => .error e
    | .ok (k, s1) =>
      match expectChar ':' (skipWs s1) with
      | .error e => .error e
      | .ok s2 =>
        match parseValueF f opts (skipWs s2) with
        | .error e => .error e
        | .ok (v, s3) =>
          let obj1 := setProp obj (String.mk k) v
          match skipWs s3 with
          | [] => .error .unexpectedEndOfInput
          | c :: s4 =>
            if c = ',' then parseObjEntriesF f opts obj1 (skipWs s4)
            else if c = '\x7d' then .ok (obj1, s4)
            else .error (.unexpectedCharacter c)
end

/-- Models the exported parse function (src/parse.rs parse): parse one value
and then require only whitespace up to the end of the input, anything else
being TrailingCharacters. -/
def parseJson (s : String) (opts : Options) : Except ParseError Value :=
  match parseValueF (s.data.length + 1) opts s.data with
  | .error e => .error e
  | .ok (v, rest) =>
    match skipWs rest with
    | [] => .ok v
    | _ :: _ => .error .trailingCharacters

/-! ### The stringifier (src/stringify.rs) -/

/-- Models the escaping of one character inside write_string, following the
source's match arms in order: quote, backslash, newline, carriage return,
tab, backspace, form feed, then the remaining control characters 0x00..0x1F
as uppercase \\uXXXX, and everything else unchanged. -/
def escapeChar (c : Char) : List Char :=
  if c = '"' then ['\\', '"']
  else if c = '\\' then ['\\', '\\']
  else if c = '\n' then ['\\', 'n']
  else if c = '\r' then ['\\', 'r']
  else if c = '\t' then ['\\', 't']
  else if c = '\x08' then ['\\', 'b']
  else if c = '\x0c' then ['\\', 'f']
  else if c.toNat ≤ 31 then '\\' :: 'u' :: hex4 c.toNat
  else [c]

def escBody (cs : List Char) : List Char :=
  cs.foldr (fun c acc => escapeChar c ++ acc) []

/-- Models JsonStringifier::write_string: a quoted, escaped string. -/
def writeJString (cs : List Char) : List Char := '"' :: (escBody cs ++ ['"'])

mutual
/-- Models JsonStringifier::write_value, dispatching on the runtime type of
the host value exactly as the source does: null, booleans, numbers (whose
host coerce_to_string conversion, ECMAScript Number::toString, is supplied
as the nts parameter), BigInts and safe integers (integral numbers below
10^21, which ECMAScript prints as their plain decimal digits), BigNumber
instances via their scientific-notation Display form, strings escaped, and
arrays and plain objects recursively, the object's pairs in its
own-property enumeration order. -/
def writeValue : (Int → Int → List Char) → Value → List Char
  | _, .null => "null".data
  | _, .boolean true => "true".data
  | _, .boolean false => "false".data
  | nts, .number sg q => nts sg q
  | _, .safeInteger n => intDec n
  | _, .bigInteger n => intDec n
  | _, .decimal d => sciNot d
  | _, .string s => writeJString s.data
  | nts, .array l => '[' :: (writeElems nts l ++ [']'])
  | nts, .object o => '\x7b' :: (writeEntries nts o ++ ['\x7d'])

/-- The element part of write_object's array branch: elements in order,
comma separated. -/
def writeElems : (Int → Int → List Char) → VList → List Char
  | _, .nil => []
  | nts, .cons v .nil => writeValue nts v
  | nts, .cons v t => writeValue nts v ++ ',' :: writeElems nts t

/-- The member part of write_object's plain-object branch: the object's
own-property names in enumeration order, each written as an escaped string
key, a colon, and the property's value, comma separated. -/
def writeEntries : (Int → Int → List Char) → OList → List Char
  | _, .nil => []
  | nts, .cons k v .nil => writeJString k.data ++ ':' :: writeValue nts v
  | nts, .cons k v t =>
    writeJString k.data ++ ':' :: writeValue nts v ++ ',' :: writeEntries nts t
end

/-- Models the exported stringify function (src/stringify.rs stringify):
build the output text for one host value. The nts parameter supplies the
host's ECMAScript Number::toString conversion used for noninteger Number
leaves (a host operation outside this repository). -/
def stringifyModel (nts : Int → Int → List Char) (v : Value) : String :=
  String.mk (writeValue nts v)

/-! ### The BigNumber constructor (src/bignumber.rs) -/

/-- A JavaScript number as received by the BigNumber constructor: either a
finite double (canonical significand/exponent form) or one of the
non-finite values. -/
inductive JsNumberValue where
  | finite (sig : Int) (exp : Int) : JsNumberValue
  | nan : JsNumberValue
  | posInfinity : JsNumberValue
  | negInfinity : JsNumberValue
deriving DecidableEq

/-- Models napi_get_value_int64 applied to a JavaScript number: by the
N-API contract it always succeeds on a number; NaN and the infinities
produce zero, and finite values are truncated toward zero and clamped to
the int64 range. -/
def napiGetInt64 : JsNumberValue → Int
  | .nan => 0
  | .posInfinity => 0
  | .negInfinity => 0
  | .finite sg q =>
    let v : Int :=
      if 0 ≤ q then sg * (2 : Int) ^ q.toNat
      else (if sg < 0 then -1 else 1) * (sg.natAbs / 2 ^ (-q).toNat : Nat)
    if v < -9223372036854775808 then -9223372036854775808
    else if 9223372036854775807 < v then 9223372036854775807
    else v

/-- Models BigNumber::new on a JavaScript number argument (the Either3::A
branch of src/bignumber.rs): the code tries get_int64 first, and since
napi_get_value_int64 succeeds on every number, that branch is always taken
and BigDecimal::from_i64 wraps the converted value; the subsequent
get_int32/get_uint32/get_double attempts and the final invalid-number error
are unreachable. -/
def bigNumberNewFromNumber (n : JsNumberValue) : Except ParseError BigDec :=
  .ok ⟨napiGetInt64 n, 0⟩

/-- Models BigNumber::new on a string argument (the Either3::B branch) for
the default radix 10: BigDecimal::from_str_radix, with a failure surfacing
as a napi InvalidArg error. -/
def bigNumberNewFromString (s : String) : Except ParseError BigDec :=
  match bigDecFromStr s.data with
  | some d => .ok d
  | none => .error .invalidArg

/-! ### Wellformedness of host value graphs -/

/-- The ECMAScript own-property-order invariant every reachable host object
satisfies: array-index keys first in strictly ascending numeric order, then
the remaining keys in insertion order, all pairwise distinct. The Bool
argument records whether a non-index key has been seen, the Option Nat the
last index key. -/
def wfKeysAux : Bool → Option Nat → List String → Bool
  | _, _, [] => true
  | seenNI, lo, k :: ks =>
    match arrayIndex? k with
    | some n =>
      !seenNI &&
        (match lo with
         | some m => decide (m < n)
         | none => true) &&
        wfKeysAux false (some n) ks
    | none => !(decide (k ∈ ks)) && wfKeysAux true none ks

def jsOrderedKeys (ks : List String) : Bool := wfKeysAux false none ks

mutual
/-- Whether a host value graph contains only the Null, Boolean, String,
SafeInteger, Array and Object variants, with the representation invariants
every reachable host graph of those variants has: safe integers within the
2^53 - 1 magnitude bound of their variant, and object property lists in
ECMAScript own-property order with distinct keys. -/
def simpleV : Value → Bool
  | .null => true
  | .boolean _ => true
  | .safeInteger n => decide (n.natAbs ≤ 9007199254740991)
  | .string _ => true
  | .array l => simpleL l
  | .object o => jsOrderedKeys (okeys o) && simpleO o
  | _ => false
def simpleL : VList → Bool
  | .nil => true
  | .cons v t => simpleV v && simpleL t
def simpleO : OList → Bool
  | .nil => true
  | .cons _ v t => simpleV v && simpleO t
end

mutual
/-- Recursion fuel sufficient for parseValueF to parse the serialized form
of a value: one unit per parse_value entry plus one per loop iteration. -/
def vfuelV : Value → Nat
  | .array l => 1 + vfuelL l
  | .object o => 1 + vfuelO o
  | _ => 1
def vfuelL : VList → Nat
  | .nil => 0
  | .cons v t => 1 + max (vfuelV v) (vfuelL t)
def vfuelO : OList → Nat
  | .nil => 0
  | .cons _ v t => 1 + max (vfuelV v) (vfuelO t)
end

/-- The continuations a serialized value is followed by inside a larger
serialized graph: end of input, a comma, or a closing bracket or brace.
None of these characters can extend a number literal. -/
def isStop : List Char → Bool
  | [] => true
  | c :: _ => c = ',' || c = ']' || c = '\x7d'

/-- The final step of the exported parse function (src/parse.rs parse): the
value from parse_value, then skip whitespace and require end of input,
anything left over being TrailingCharacters. -/
def finishParse : Except ParseError (Value × List Char) → Except ParseError Value
  | .error e => .error e
  | .ok (v, rest) =>
    match skipWs rest with
    | [] => .ok v
    | _ :: _ => .error .trailingCharacters

/-- The object text of the duplicate-key example of the specification. -/
def dupKeyText : List Char :=
  ['\x7b', '"', 'a', '"', ':', '1', ',', '"', 'b', '"', ':', '2', ',',
   '"', 'a', '"', ':', '3', '\x7d']

/-- The stringified form of the object the duplicate-key example parses to. -/
def dupKeyOutText : List Char :=
  ['\x7b', '"', 'a', '"', ':', '3', ',', '"', 'b', '"', ':', '2', '\x7d']

/-- A concrete host value graph exercising every simple variant: an object
holding a safe integer and an array of null, boolean and string leaves. -/
def exampleGraph : Value :=
  .object (.cons "a" (.safeInteger 1)
    (.cons "b" (.array (.cons .null (.cons (.boolean true)
      (.cons (.string "x") .nil)))) .nil))

/-! ### Basic character lemmas -/

theorem isDigitC_bounds {c : Char} (h : isDigitC c = true) : 48 ≤ c.toNat ∧ c.toNat ≤ 57 := by
  simpa [isDigitC, Bool.and_eq_true, decide_eq_true_eq] using h

theorem digit_ne {c x : Char} (h : isDigitC c = true) (hx : isDigitC x = false) : c ≠ x := by
  intro he
  rw [he, hx] at h
  cases h

theorem char_ne_of_toNat_ne {c d : Char} (h : c.toNat ≠ d.toNat) : c ≠ d :=
  fun he => h (congrArg Char.toNat he)

theorem rustIsWhitespace_iff {c : Char} :
    rustIsWhitespace c = true ↔
      ((9 ≤ c.toNat ∧ c.toNat ≤ 13) ∨ c.toNat = 32 ∨ c.toNat = 133 ∨ c.toNat = 160 ∨
        c.toNat = 5760 ∨ (8192 ≤ c.toNat ∧ c.toNat ≤ 8202) ∨ c.toNat = 8232 ∨
        c.toNat = 8233 ∨ c.toNat = 8239 ∨ c.toNat = 8287 ∨ c.toNat = 12288) := by
  simp only [rustIsWhitespace, Bool.or_eq_true, Bool.and_eq_true, decide_eq_true_eq,
    beq_iff_eq]
  tauto

theorem ws_not_digit {c : Char} (h : rustIsWhitespace c = true) : isDigitC c = false := by
  have hs := rustIsWhitespace_iff.mp h
  cases hd : isDigitC c with
  | false => rfl
  | true =>
    have := isDigitC_bounds hd
    omega

theorem ws_char_facts {c : Char} (h : rustIsWhitespace c = true) :
    isDigitC c = false ∧ c ≠ '.' ∧ c ≠ 'e' ∧ c ≠ 'E' ∧ c ≠ '-' ∧ c ≠ '+' := by
  have hs := rustIsWhitespace_iff.mp h
  refine ⟨ws_not_digit h, char_ne_of_toNat_ne ?_, char_ne_of_toNat_ne ?_,
    char_ne_of_toNat_ne ?_, char_ne_of_toNat_ne ?_, char_ne_of_toNat_ne ?_⟩
  · rw [show ('.' : Char).toNat = 46 from rfl]; omega
  · rw [show ('e' : Char).toNat = 101 from rfl]; omega
  · rw [show ('E' : Char).toNat = 69 from rfl]; omega
  · rw [show ('-' : Char).toNat = 45 from rfl]; omega
  · rw [show ('+' : Char).toNat = 43 from rfl]; omega

theorem ws_false_of_digit {c : Char} (h : isDigitC c = true) : rustIsWhitespace c = false := by
  cases hws : rustIsWhitespace c with
  | false => rfl
  | true =>
    have hs := rustIsWhitespace_iff.mp hws
    have := isDigitC_bounds h
    omega

theorem skipWs_nil : skipWs [] = [] := rfl

theorem skipWs_cons (c : Char) (t : List Char) :
    skipWs (c :: t) = if rustIsWhitespace c then skipWs t else c :: t :=
  List.dropWhile_cons

theorem skipWs_not (c : Char) (t : List Char) (h : rustIsWhitespace c = false) :
    skipWs (c :: t) = c :: t := by
  simp [skipWs, List.dropWhile_cons, h]

theorem isStop_cases {r : List Char} (h : isStop r = true) :
    r = [] ∨ ∃ c t, r = c :: t ∧ (c = ',' ∨ c = ']' ∨ c = '\x7d') := by
  cases r with
  | nil => exact Or.inl rfl
  | cons c t =>
    refine Or.inr ⟨c, t, rfl, ?_⟩
    have := h
    simp only [isStop, Bool.or_eq_true, decide_eq_true_eq] at this
    tauto

/-! ### Decimal digit rendering lemmas -/

theorem char_toNat_ofNat_digit {d : Nat} (h : d < 10) : (Char.ofNat (48 + d)).toNat = 48 + d := by
  interval_cases d <;> decide

theorem natDecAux_spec :
    ∀ (f n : Nat), n < f → ∀ (acc : List Char),
      natDecAux f n acc =
        (if n = 0 then ['0']
         else ((Nat.digits 10 n).map (fun d => Char.ofNat (48 + d))).reverse) ++ acc := by
  intro f
  induction f with
  | zero => intro n h; omega
  | succ f ih =>
    intro n h acc
    by_cases h10 : n < 10
    · rw [natDecAux]
      simp only [h10, if_true]
      by_cases h0 : n = 0
      · subst h0; rfl
      · have h1 : 0 < n := Nat.pos_of_ne_zero h0
        rw [if_neg h0, Nat.digits_def' (by norm_num) h1]
        have : n / 10 = 0 := Nat.div_eq_of_lt h10
        rw [this]
        simp [Nat.mod_eq_of_lt h10]
    · rw [natDecAux]
      simp only [h10, if_false]
      have hn0 : n ≠ 0 := by omega
      have hdiv : n / 10 < f := by
        have : n / 10 < n := Nat.div_lt_self (by omega) (by norm_num)
        omega
      rw [ih (n / 10) hdiv]
      have hq0 : n / 10 ≠ 0 := by omega
      rw [if_neg hq0, if_neg hn0,
        Nat.digits_def' (by norm_num : (1 : ℕ) < 10) (Nat.pos_of_ne_zero hn0)]
      simp

theorem natDec_spec (n : Nat) :
    natDec n =
      (if n = 0 then ['0']
       else ((Nat.digits 10 n).map (fun d => Char.ofNat (48 + d))).reverse) := by
  rw [natDec, natDecAux_spec (n + 1) n (Nat.lt_succ_self n) [], List.append_nil]

theorem natDec_ne_nil (n : Nat) : natDec n ≠ [] := by
  rw [natDec_spec]
  by_cases h0 : n = 0
  · simp [h0]
  · simp only [h0, if_false]
    intro he
    have : Nat.digits 10 n = [] := by
      have := congrArg List.length he
      simpa using this
    have := Nat.digits_eq_nil_iff_eq_zero.mp this
    exact h0 this

theorem natDec_all_digits (n : Nat) : ∀ c ∈ natDec n, isDigitC c = true := by
  rw [natDec_spec]
  by_cases h0 : n = 0
  · simp [h0]
    decide
  · simp only [h0, if_false]
    intro c hc
    rw [List.mem_reverse] at hc
    obtain ⟨d, hd, rfl⟩ := List.mem_map.mp hc
    have hd10 : d < 10 := Nat.digits_lt_base (by norm_num) hd
    have ht := char_toNat_ofNat_digit hd10
    simp [isDigitC, ht]
    omega

theorem decDigitsVal_aux (ds : List Nat) (h : ∀ d ∈ ds, d < 10) (i : Nat) :
    ((ds.map (fun d => Char.ofNat (48 + d))).reverse).foldl
        (fun a c => 10 * a + (c.toNat - 48)) i
      = i * 10 ^ ds.length + Nat.ofDigits 10 ds := by
  induction ds generalizing i with
  | nil => simp
  | cons d t ih =>
    have hd10 : d < 10 := h d (List.mem_cons_self d t)
    have ht : ∀ x ∈ t, x < 10 := fun x hx => h x (List.mem_cons_of_mem d hx)
    simp only [List.map_cons, List.reverse_cons, List.foldl_append, List.foldl_cons,
      List.foldl_nil, ih ht]
    rw [char_toNat_ofNat_digit hd10]
    simp only [Nat.ofDigits_cons, List.length_cons]
    ring_nf
    omega

theorem decDigitsVal_natDec (n : Nat) : decDigitsVal (natDec n) = n := by
  rw [natDec_spec]
  by_cases h0 : n = 0
  · simp [h0]
    decide
  · simp only [h0, if_false, decDigitsVal]
    have := decDigitsVal_aux (Nat.digits 10 n)
      (fun d hd => Nat.digits_lt_base (by norm_num) hd) 0
    simpa [Nat.ofDigits_digits] using this

/-! ### Number scanning and parsing lemmas -/

theorem scanNum_break {c : Char} (hc1 : isDigitC c = false) (hc2 : c ≠ '.')
    (hc3 : c ≠ 'e') (hc4 : c ≠ 'E') (cs : List Char) (hd he : Bool) :
    scanNum (c :: cs) hd he = ([], hd, he, c :: cs) := by
  rw [scanNum, scanNumA]
  simp [hc1, hc2, hc3, hc4]

theorem scanNum_digit {c : Char} (hc : isDigitC c = true) (cs : List Char) (hd he : Bool) :
    scanNum (c :: cs) hd he = (c :: (scanNum cs hd he).1, (scanNum cs hd he).2) := by
  rw [scanNum, scanNumA, scanNum]
  simp [hc]

theorem scanNum_stop {r : List Char} (hr : isStop r = true) (hd he : Bool) :
    scanNum r hd he = ([], hd, he, r) := by
  rcases isStop_cases hr with rfl | ⟨c, t, rfl, hc | hc | hc⟩ <;>
    first
      | rfl
      | (subst hc; exact scanNum_break (by decide) (by decide) (by decide) (by decide) t hd he)

theorem scanNum_digits (ds : List Char) (hds : allDigits ds = true) {r : List Char}
    (hr : isStop r = true) (hd he : Bool) :
    scanNum (ds ++ r) hd he = (ds, hd, he, r) := by
  induction ds with
  | nil =>
    simpa using scanNum_stop hr hd he
  | cons c t ih =>
    have hc : isDigitC c = true := by
      have := (List.all_eq_true.mp hds) c (List.mem_cons_self c t)
      simpa using this
    have ht : allDigits t = true := by
      apply List.all_eq_true.mpr
      intro x hx
      exact (List.all_eq_true.mp hds) x (List.mem_cons_of_mem c hx)
    rw [List.cons_append, scanNum_digit hc, ih ht]

theorem splitSign_digit {c : Char} (t : List Char) (hc : isDigitC c = true) :
    splitSign (c :: t) = (false, c :: t) := by
  rw [splitSign]
  rw [if_neg (digit_ne hc (by decide)), if_neg (digit_ne hc (by decide))]

theorem notEmpty_of_ne_nil {ds : List Char} (h : ds ≠ []) : ds.isEmpty = false := by
  cases ds with
  | nil => exact absurd rfl h
  | cons c t => rfl

theorem signedDecVal_digits (ds : List Char) (h1 : ds ≠ []) (h2 : allDigits ds = true) :
    signedDecVal? ds = some (decDigitsVal ds : Int) := by
  obtain ⟨c, t, rfl⟩ : ∃ c t, ds = c :: t := by
    cases ds with
    | nil => exact absurd rfl h1
    | cons c t => exact ⟨c, t, rfl⟩
  have hc : isDigitC c = true := by
    have := (List.all_eq_true.mp h2) c (List.mem_cons_self c t)
    simpa using this
  rw [signedDecVal?, splitSign_digit t hc]
  simp [h2]

theorem signedDecVal_neg_digits (ds : List Char) (h1 : ds ≠ []) (h2 : allDigits ds = true) :
    signedDecVal? ('-' :: ds) = some (-(decDigitsVal ds : Int)) := by
  rw [signedDecVal?, splitSign]
  simp [notEmpty_of_ne_nil h1, h2]

/-- The value denoted by an optionally negated digit string. -/
theorem parseNumber_pure_int (opts : Options) (neg : Bool) (ds : List Char)
    (h1 : ds ≠ []) (h2 : allDigits ds = true) {r : List Char} (hr : isStop r = true) :
    parseNumberV opts ((if neg then '-' :: ds else ds) ++ r) =
      (let v : Int := if neg then -(decDigitsVal ds : Int) else (decDigitsVal ds : Int)
       if isSomeAndTrue opts.alwaysParseAsBig = false ∧ v.natAbs ≤ 9007199254740991
       then .ok (.safeInteger v, r) else .ok (.bigInteger v, r)) := by
  obtain ⟨c, t, rfl⟩ : ∃ c t, ds = c :: t := by
    cases ds with
    | nil => exact absurd rfl h1
    | cons c t => exact ⟨c, t, rfl⟩
  have hc : isDigitC c = true := by
    have := (List.all_eq_true.mp h2) c (List.mem_cons_self c t)
    simpa using this
  have hscan : scanNumberFull ((if neg then '-' :: c :: t else c :: t) ++ r) =
      ((if neg then '-' :: c :: t else c :: t), false, false, r) := by
    cases neg with
    | true =>
      show scanNumberFull (('-' :: c :: t) ++ r) = ('-' :: c :: t, false, false, r)
      simp only [List.cons_append]
      rw [scanNumberFull]
      have := scanNum_digits (c :: t) h2 hr false false
      rw [List.cons_append] at this
      simp [this]
    | false =>
      show scanNumberFull ((c :: t) ++ r) = (c :: t, false, false, r)
      simp only [List.cons_append]
      rw [scanNumberFull]
      rw [if_neg (digit_ne hc (by decide))]
      have := scanNum_digits (c :: t) h2 hr false false
      rw [List.cons_append] at this
      exact this
  rw [parseNumberV, hscan]
  simp only [Bool.or_self, if_false, Bool.false_or]
  have hsv : signedDecVal? (if neg then '-' :: c :: t else c :: t) =
      some (if neg then -(decDigitsVal (c :: t) : Int) else (decDigitsVal (c :: t) : Int)) := by
    cases neg with
    | true => simpa using signedDecVal_neg_digits (c :: t) h1 h2
    | false => simpa using signedDecVal_digits (c :: t) h1 h2
  set v : Int := if neg then -(decDigitsVal (c :: t) : Int) else (decDigitsVal (c :: t) : Int) with hv
  by_cases hbig : isSomeAndTrue opts.alwaysParseAsBig = true
  · simp only [hbig, if_true]
    rw [parseBigIntDec, hsv]
    simp [hbig]
  · have hbig' : isSomeAndTrue opts.alwaysParseAsBig = false := by
      cases hb : isSomeAndTrue opts.alwaysParseAsBig with
      | false => rfl
      | true => exact absurd hb hbig
    simp only [hbig', if_false, Bool.false_eq_true, parseI64, parseBigIntDec]
    rw [hsv]
    by_cases hsafe : v.natAbs ≤ 9007199254740991
    · have hr1 : -9223372036854775808 ≤ v ∧ v ≤ 9223372036854775807 := by omega
      have hr2 : -9007199254740991 ≤ v ∧ v ≤ 9007199254740991 := by omega
      simp [hr1, hr2, hsafe]
    · by_cases h64 : -9223372036854775808 ≤ v ∧ v ≤ 9223372036854775807
      · have hr2 : ¬(-9007199254740991 ≤ v ∧ v ≤ 9007199254740991) := by omega
        simp [h64, hr2, hsafe]
      · simp [h64, hsafe]

/-! ### String escaping round-trip lemmas -/

theorem hex4_parse {n : Nat} (h : n < 32) : parseHexU32 (hex4 n) = some n := by
  have key : ∀ i : Fin 32, parseHexU32 (hex4 i.val) = some i.val := by decide
  exact key ⟨n, h⟩

theorem charFromU32_small {c : Char} (h : c.toNat < 55296) : charFromU32 c.toNat = some c := by
  rw [charFromU32, if_pos (Or.inl h), Char.ofNat_toNat]

theorem escBody_cons (c : Char) (t : List Char) :
    escBody (c :: t) = escapeChar c ++ escBody t := rfl

theorem except_map_ok {α β γ : Type} (f : α → β) (e : Except γ α) (x : α)
    (h : e = .ok x) : e.map f = .ok (f x) := by
  rw [h]
  rfl

theorem parseStrBody_quote (r : List Char) : parseStrBody ('"' :: r) = .ok ([], r) := rfl

theorem parseStrBody_raw {c : Char} (h1 : c ≠ '"') (h2 : c ≠ '\\') (r : List Char) :
    parseStrBody (c :: r) = (parseStrBody r).map (fun p => (c :: p.1, p.2)) := by
  rw [parseStrBody]
  rw [if_neg h1, if_neg h2]

theorem parseStrBody_escape (cs : List Char) (r : List Char) :
    parseStrBody (escBody cs ++ '"' :: r) = .ok (cs, r) := by
  induction cs with
  | nil => exact parseStrBody_quote r
  | cons c t ih =>
    rw [escBody_cons, List.append_assoc]
    by_cases h1 : c = '"'
    · subst h1
      show parseStrBody ('\\' :: '"' :: (escBody t ++ '"' :: r)) = _
      rw [show ∀ x, parseStrBody ('\\' :: '"' :: x) =
        (parseStrBody x).map (fun p => ('"' :: p.1, p.2)) from fun x => rfl, ih]
      rfl
    · by_cases h2 : c = '\\'
      · subst h2
        show parseStrBody ('\\' :: '\\' :: (escBody t ++ '"' :: r)) = _
        rw [show ∀ x, parseStrBody ('\\' :: '\\' :: x) =
          (parseStrBody x).map (fun p => ('\\' :: p.1, p.2)) from fun x => rfl, ih]
        rfl
      · by_cases h3 : c = '\n'
        · subst h3
          show parseStrBody ('\\' :: 'n' :: (escBody t ++ '"' :: r)) = _
          rw [show ∀ x, parseStrBody ('\\' :: 'n' :: x) =
            (parseStrBody x).map (fun p => ('\n' :: p.1, p.2)) from fun x => rfl, ih]
          rfl
        · by_cases h4 : c = '\r'
          · subst h4
            show parseStrBody ('\\' :: 'r' :: (escBody t ++ '"' :: r)) = _
            rw [show ∀ x, parseStrBody ('\\' :: 'r' :: x) =
              (parseStrBody x).map (fun p => ('\r' :: p.1, p.2)) from fun x => rfl, ih]
            rfl
          · by_cases h5 : c = '\t'
            · subst h5
              show parseStrBody ('\\' :: 't' :: (escBody t ++ '"' :: r)) = _
              rw [show ∀ x, parseStrBody ('\\' :: 't' :: x) =
                (parseStrBody x).map (fun p => ('\t' :: p.1, p.2)) from fun x => rfl, ih]
              rfl
            · by_cases h6 : c = '\x08'
              · subst h6
                show parseStrBody ('\\' :: 'b' :: (escBody t ++ '"' :: r)) = _
                rw [show ∀ x, parseStrBody ('\\' :: 'b' :: x) =
                  (parseStrBody x).map (fun p => ('\x08' :: p.1, p.2)) from fun x => rfl, ih]
                rfl
              · by_cases h7 : c = '\x0c'
                · subst h7
                  show parseStrBody ('\\' :: 'f' :: (escBody t ++ '"' :: r)) = _
                  rw [show ∀ x, parseStrBody ('\\' :: 'f' :: x) =
                    (parseStrBody x).map (fun p => ('\x0c' :: p.1, p.2)) from fun x => rfl,
                    ih]
                  rfl
                · by_cases h8 : c.toNat ≤ 31
                  · have hesc : escapeChar c = '\\' :: 'u' :: hex4 c.toNat := by
                      rw [escapeChar]
                      rw [if_neg h1, if_neg h2, if_neg h3, if_neg h4, if_neg h5,
                        if_neg h6, if_neg h7, if_pos h8]
                    rw [hesc]
                    show parseStrBody
                        ('\\' :: 'u' :: (hex4 c.toNat ++ (escBody t ++ '"' :: r))) = _
                    rw [show ∀ x, parseStrBody ('\\' :: 'u' :: x) = parseUnicode x
                      from fun x => rfl]
                    rw [show hex4 c.toNat ++ (escBody t ++ '"' :: r) =
                      hexDigitChar (c.toNat / 4096 % 16) :: hexDigitChar (c.toNat / 256 % 16) ::
                        hexDigitChar (c.toNat / 16 % 16) :: hexDigitChar (c.toNat % 16) ::
                        (escBody t ++ '"' :: r) from rfl]
                    rw [parseUnicode]
                    have hh := hex4_parse (show c.toNat < 32 by omega)
                    rw [hex4] at hh
                    rw [hh]
                    simp [charFromU32_small (show c.toNat < 55296 by omega), ih, Except.map]
                  · have hesc : escapeChar c = [c] := by
                      rw [escapeChar]
                      rw [if_neg h1, if_neg h2, if_neg h3, if_neg h4, if_neg h5,
                        if_neg h6, if_neg h7, if_neg h8]
                    rw [hesc]
                    show parseStrBody (c :: (escBody t ++ '"' :: r)) = _
                    rw [parseStrBody_raw h1 h2, ih]
                    rfl

theorem parseStrLit_write (cs : List Char) (r : List Char) :
    parseStrLit (writeJString cs ++ r) = .ok (cs, r) := by
  rw [writeJString]
  show parseStrLit ('"' :: ((escBody cs ++ ['"']) ++ r)) = .ok (cs, r)
  rw [parseStrLit]
  show (match expectChar '"' ('"' :: ((escBody cs ++ ['"']) ++ r)) with
    | .error e => .error e
    | .ok t => parseStrBody t) = Except.ok (cs, r)
  rw [expectChar]
  simp only [if_pos rfl]
  rw [List.append_assoc]
  exact parseStrBody_escape cs r

/-! ### Object property-order lemmas -/

theorem wf_seen_no_index : ∀ (l : List String), wfKeysAux true none l = true →
    ∀ x ∈ l, arrayIndex? x = none := by
  intro l
  induction l with
  | nil => intro _ x hx; cases hx
  | cons y t ih =>
    intro h x hx
    rw [wfKeysAux] at h
    cases harr : arrayIndex? y with
    | some m =>
      simp only [harr] at h
      simp at h
    | none =>
      simp only [harr] at h
      simp only [Bool.and_eq_true] at h
      rcases List.mem_cons.mp hx with rfl | hx2
      · exact harr
      · exact ih h.2 x hx2

theorem wf_index_lt : ∀ (xs : List String) (m : Nat) (k : String) (ks : List String) (nk : Nat),
    wfKeysAux false (some m) (xs ++ k :: ks) = true → arrayIndex? k = some nk → m < nk := by
  intro xs
  induction xs with
  | nil =>
    intro m k ks nk h hk
    rw [List.nil_append, wfKeysAux] at h
    simp only [hk] at h
    simp only [Bool.and_eq_true, decide_eq_true_eq, Bool.not_eq_true'] at h
    omega
  | cons x xs ih =>
    intro m k ks nk h hk
    rw [List.cons_append, wfKeysAux] at h
    cases harr : arrayIndex? x with
    | some p =>
      simp only [harr] at h
      simp only [Bool.and_eq_true, decide_eq_true_eq, Bool.not_eq_true'] at h
      have h1 : m < p := by tauto
      have h2 : wfKeysAux false (some p) (xs ++ k :: ks) = true := by tauto
      exact lt_trans h1 (ih p k ks nk h2 hk)
    | none =>
      simp only [harr] at h
      simp only [Bool.and_eq_true] at h
      have := wf_seen_no_index _ h.2 k (by simp)
      rw [hk] at this
      cases this

theorem okeys_oappend (a b : OList) : okeys (oappend a b) = okeys a ++ okeys b := by
  cases a with
  | nil => rfl
  | cons k v t => simp [oappend, okeys, okeys_oappend t b]

theorem oappend_assoc (a b c : OList) :
    oappend (oappend a b) c = oappend a (oappend b c) := by
  cases a with
  | nil => rfl
  | cons k v t => simp [oappend, oappend_assoc t b c]

theorem setProp_append : ∀ (acc : OList) (k : String) (v : Value) (ks : List String)
    (seen : Bool) (lo : Option Nat),
    wfKeysAux seen lo (okeys acc ++ k :: ks) = true →
    setProp acc k v = oappend acc (.cons k v .nil)
  | .nil, k, v, ks, seen, lo, _ => rfl
  | .cons k' v' t, k, v, ks, seen, lo, h => by
    rw [okeys, List.cons_append, wfKeysAux] at h
    rw [setProp, oappend]
    cases harr' : arrayIndex? k' with
    | some m =>
      simp only [harr'] at h
      simp only [Bool.and_eq_true] at h
      have hwf : wfKeysAux false (some m) (okeys t ++ k :: ks) = true := by tauto
      have hne : k' ≠ k := by
        intro he
        subst he
        exact lt_irrefl m (wf_index_lt (okeys t) m k' ks m hwf harr')
      rw [if_neg hne]
      cases hk : arrayIndex? k with
      | some n =>
        have hlt : m < n := wf_index_lt (okeys t) m k ks n hwf hk
        simp only [hk, harr']
        rw [if_neg (by omega)]
        rw [setProp_append t k v ks false (some m) hwf]
      | none =>
        simp only [hk]
        rw [setProp_append t k v ks false (some m) hwf]
    | none =>
      simp only [harr'] at h
      simp only [Bool.and_eq_true, Bool.not_eq_true', decide_eq_false_iff_not] at h
      have hmem : k ∈ okeys t ++ k :: ks := by simp
      have hne : k' ≠ k := by
        intro he
        subst he
        exact h.1 hmem
      rw [if_neg hne]
      cases hk : arrayIndex? k with
      | some n =>
        have := wf_seen_no_index _ h.2 k hmem
        rw [hk] at this
        cases this
      | none =>
        simp only [hk]
        rw [setProp_append t k v ks true none h.2]

theorem wf_weaken {seen : Bool} {lo : Option Nat} {l : List String}
    (h : wfKeysAux seen lo l = true) : wfKeysAux false none l = true := by
  cases l with
  | nil => rfl
  | cons k ks =>
    rw [wfKeysAux] at h ⊢
    cases harr : arrayIndex? k with
    | some n =>
      simp only [harr] at h ⊢
      simp only [Bool.and_eq_true] at h ⊢
      tauto
    | none =>
      simp only [harr] at h ⊢
      exact h

theorem olookup_isSome_mem : ∀ (l : OList) (k : String),
    (olookup l k).isSome = true → k ∈ okeys l
  | .nil, k, h => by cases h
  | .cons k' v' t, k, h => by
    rw [olookup] at h
    by_cases he : k' = k
    · subst he
      simp [okeys]
    · rw [if_neg he] at h
      simp [okeys, olookup_isSome_mem t k h]

theorem setProp_existing : ∀ (l : OList) (k : String) (v : Value),
    jsOrderedKeys (okeys l) = true → (olookup l k).isSome = true →
    okeys (setProp l k v) = okeys l ∧ olookup (setProp l k v) k = some v
  | .nil, k, v, _, h => by cases h
  | .cons k' v' t, k, v, hwf, hl => by
    rw [jsOrderedKeys, okeys, wfKeysAux] at hwf
    rw [olookup] at hl
    rw [setProp]
    by_cases he : k' = k
    · subst he
      rw [if_pos rfl]
      refine ⟨rfl, ?_⟩
      rw [olookup, if_pos rfl]
    · rw [if_neg he] at hl
      rw [if_neg he]
      have hmem : k ∈ okeys t := olookup_isSome_mem t k hl
      obtain ⟨xs, ks, hsplit⟩ := List.append_of_mem hmem
      have hwft : jsOrderedKeys (okeys t) = true := by
        cases harr' : arrayIndex? k' with
        | some m =>
          simp only [harr'] at hwf
          simp only [Bool.and_eq_true] at hwf
          exact wf_weaken (show wfKeysAux false (some m) (okeys t) = true by tauto)
        | none =>
          simp only [harr'] at hwf
          simp only [Bool.and_eq_true] at hwf
          exact wf_weaken hwf.2
      have hrec : okeys (.cons k' v' (setProp t k v) : OList) = okeys (.cons k' v' t : OList) ∧
          olookup (.cons k' v' (setProp t k v) : OList) k = some v := by
        obtain ⟨ho, hv⟩ := setProp_existing t k v hwft hl
        refine ⟨?_, ?_⟩
        · rw [okeys, okeys, ho]
        · rw [olookup, if_neg he, hv]
      cases harr' : arrayIndex? k' with
      | some m =>
        simp only [harr'] at hwf
        simp only [Bool.and_eq_true] at hwf
        have hwfm : wfKeysAux false (some m) (okeys t) = true := by tauto
        cases hk : arrayIndex? k with
        | some n =>
          have hlt : m < n := by
            rw [hsplit] at hwfm
            exact wf_index_lt xs m k ks n hwfm hk
          simp only [hk, harr']
          rw [if_neg (by omega)]
          exact hrec
        | none =>
          simp only [hk]
          exact hrec
      | none =>
        simp only [harr'] at hwf
        simp only [Bool.and_eq_true] at hwf
        cases hk : arrayIndex? k with
        | some n =>
          have := wf_seen_no_index _ hwf.2 k hmem
          rw [hk] at this
          cases this
        | none =>
          simp only [hk]
          exact hrec

/-! ### Single-value parsing lemmas -/

theorem allDigits_natDec (n : Nat) : allDigits (natDec n) = true :=
  List.all_eq_true.mpr (fun c hc => by simpa using natDec_all_digits n c hc)

theorem parseValueF_null (f : Nat) (opts : Options) (r : List Char) :
    parseValueF (f+1) opts ('n' :: 'u' :: 'l' :: 'l' :: r) = .ok (.null, r) := by
  rw [parseValueF, skipWs_not _ _ (by decide)]
  simp [expectStr, expectChar, Except.map]

theorem parseValueF_true (f : Nat) (opts : Options) (r : List Char) :
    parseValueF (f+1) opts ('t' :: 'r' :: 'u' :: 'e' :: r) = .ok (.boolean true, r) := by
  rw [parseValueF, skipWs_not _ _ (by decide)]
  simp [expectStr, expectChar, Except.map]

theorem parseValueF_false (f : Nat) (opts : Options) (r : List Char) :
    parseValueF (f+1) opts ('f' :: 'a' :: 'l' :: 's' :: 'e' :: r) = .ok (.boolean false, r) := by
  rw [parseValueF, skipWs_not _ _ (by decide)]
  simp [expectStr, expectChar, Except.map]

theorem parseValueF_string (f : Nat) (opts : Options) (cs : List Char) (r : List Char) :
    parseValueF (f+1) opts (writeJString cs ++ r) = .ok (.string (String.mk cs), r) := by
  rw [writeJString]
  show parseValueF (f+1) opts ('"' :: ((escBody cs ++ ['"']) ++ r)) = _
  rw [parseValueF, skipWs_not _ _ (by decide), List.append_assoc, List.singleton_append]
  simp [parseStrBody_escape, Except.map]

theorem parseValueF_int (f : Nat) (opts : Options) (hbig : isSomeAndTrue opts.alwaysParseAsBig = false)
    (n : Int) (hn : n.natAbs ≤ 9007199254740991) {r : List Char} (hr : isStop r = true) :
    parseValueF (f+1) opts (intDec n ++ r) = .ok (.safeInteger n, r) := by
  by_cases hneg : n < 0
  · have hid : intDec n = '-' :: natDec n.natAbs := by rw [intDec, if_pos hneg]
    rw [hid]
    show parseValueF (f+1) opts ('-' :: (natDec n.natAbs ++ r)) = _
    rw [parseValueF, skipWs_not _ _ (by decide)]
    have hp := parseNumber_pure_int opts true (natDec n.natAbs) (natDec_ne_nil _)
      (allDigits_natDec _) hr
    simp only [if_true] at hp
    rw [List.cons_append] at hp
    have hv : -(decDigitsVal (natDec n.natAbs) : Int) = n := by
      rw [decDigitsVal_natDec]
      omega
    rw [hv] at hp
    simp [hp, hbig, hn]
  · have hid : intDec n = natDec n.natAbs := by
      rw [intDec, if_neg hneg]
      congr 1
      omega
    rw [hid]
    obtain ⟨c, t, hct⟩ : ∃ c t, natDec n.natAbs = c :: t := by
      cases hnd : natDec n.natAbs with
      | nil => exact absurd hnd (natDec_ne_nil _)
      | cons c t => exact ⟨c, t, rfl⟩
    have hc : isDigitC c = true := by
      have := natDec_all_digits n.natAbs c (by rw [hct]; exact List.mem_cons_self c t)
      simpa using this
    have hp := parseNumber_pure_int opts false (natDec n.natAbs) (natDec_ne_nil _)
      (allDigits_natDec _) hr
    have hv : (decDigitsVal (natDec n.natAbs) : Int) = n := by
      rw [decDigitsVal_natDec]
      omega
    rw [hv] at hp
    simp only [show ((false : Bool) = true) = False from by simp, if_false] at hp
    rw [hct, List.cons_append] at hp
    rw [hct]
    show parseValueF (f+1) opts (c :: (t ++ r)) = _
    rw [parseValueF, skipWs_not _ _ (ws_false_of_digit hc)]
    simp [digit_ne hc (show isDigitC 'n' = false from by decide),
      digit_ne hc (show isDigitC 't' = false from by decide),
      digit_ne hc (show isDigitC 'f' = false from by decide),
      digit_ne hc (show isDigitC '"' = false from by decide),
      digit_ne hc (show isDigitC '[' = false from by decide),
      digit_ne hc (show isDigitC ('\x7b') = false from by decide),
      hc, hp, hbig, hn]

theorem intDec_ne_nil (n : Int) : intDec n ≠ [] := by
  rw [intDec]
  by_cases h : n < 0
  · simp [h]
  · simp [h, natDec_ne_nil]

/-- The first character of a serialized simple value: never whitespace and
never a closing bracket, so the parser's whitespace skipping and the array
empty check leave it in place. -/
theorem writeValue_head (nts : Int → Int → List Char) (v : Value) (h : simpleV v = true) :
    ∃ c cs, writeValue nts v = c :: cs ∧ rustIsWhitespace c = false ∧ c ≠ ']' := by
  cases v with
  | null => exact ⟨'n', _, rfl, by decide, by decide⟩
  | boolean b =>
    cases b with
    | true => exact ⟨'t', _, rfl, by decide, by decide⟩
    | false => exact ⟨'f', _, rfl, by decide, by decide⟩
  | number sg q => simp [simpleV] at h
  | bigInteger n => simp [simpleV] at h
  | decimal d => simp [simpleV] at h
  | string s => exact ⟨'"', _, rfl, by decide, by decide⟩
  | array l => exact ⟨'[', _, rfl, by decide, by decide⟩
  | object o => exact ⟨'\x7b', _, rfl, by decide, by decide⟩
  | safeInteger n =>
    show ∃ c cs, intDec n = c :: cs ∧ _
    rw [intDec]
    by_cases hneg : n < 0
    · exact ⟨'-', _, by rw [if_pos hneg], by decide, by decide⟩
    · rw [if_neg hneg]
      obtain ⟨c, t, hct⟩ : ∃ c t, natDec n.toNat = c :: t := by
        cases hnd : natDec n.toNat with
        | nil => exact absurd hnd (natDec_ne_nil _)
        | cons c t => exact ⟨c, t, rfl⟩
      have hc : isDigitC c = true := by
        have := natDec_all_digits n.toNat c (by rw [hct]; exact List.mem_cons_self c t)
        simpa using this
      exact ⟨c, t, hct, ws_false_of_digit hc, digit_ne hc (by decide)⟩

mutual
theorem vfuelV_le (nts : Int → Int → List Char) :
    ∀ (v : Value), simpleV v = true → vfuelV v ≤ (writeValue nts v).length
  | .null, _ => by
    show 1 ≤ ("null".data).length
    decide
  | .boolean true, _ => by
    show 1 ≤ ("true".data).length
    decide
  | .boolean false, _ => by
    show 1 ≤ ("false".data).length
    decide
  | .number sg q, h => by simp [simpleV] at h
  | .bigInteger n, h => by simp [simpleV] at h
  | .decimal d, h => by simp [simpleV] at h
  | .safeInteger n, _ => by
    show 1 ≤ (intDec n).length
    have := intDec_ne_nil n
    cases hd : intDec n with
    | nil => exact absurd hd this
    | cons c t => simp
  | .string s, _ => by
    show 1 ≤ (writeJString s.data).length
    rw [writeJString]
    simp
  | .array l, h => by
    have hl : simpleL l = true := by simpa [simpleV] using h
    have := vfuelL_le nts l hl
    show 1 + vfuelL l ≤ ('[' :: (writeElems nts l ++ [']'])).length
    simp only [List.length_cons, List.length_append, List.length_singleton]
    omega
  | .object o, h => by
    have ho : simpleO o = true := by
      have := h
      simp only [simpleV, Bool.and_eq_true] at this
      exact this.2
    have := vfuelO_le nts o ho
    show 1 + vfuelO o ≤ ('\x7b' :: (writeEntries nts o ++ ['\x7d'])).length
    simp only [List.length_cons, List.length_append, List.length_singleton]
    omega

theorem vfuelL_le (nts : Int → Int → List Char) :
    ∀ (l : VList), simpleL l = true → vfuelL l ≤ (writeElems nts l).length + 1
  | .nil, _ => by
    show 0 ≤ ([] : List Char).length + 1
    simp
  | .cons v .nil, h => by
    have hv : simpleV v = true := by
      simp only [simpleL, Bool.and_eq_true] at h
      exact h.1
    have h1 := vfuelV_le nts v hv
    show 1 + max (vfuelV v) (vfuelL .nil) ≤ (writeValue nts v).length + 1
    have : vfuelL .nil = 0 := rfl
    rw [this]
    omega
  | .cons v (.cons v2 t2), h => by
    simp only [simpleL, Bool.and_eq_true] at h
    have h1 := vfuelV_le nts v h.1
    have h2 := vfuelL_le nts (.cons v2 t2) (by simp [simpleL]; tauto)
    show 1 + max (vfuelV v) (vfuelL (.cons v2 t2)) ≤
      (writeValue nts v ++ ',' :: writeElems nts (.cons v2 t2)).length + 1
    simp only [List.length_append, List.length_cons]
    omega

theorem vfuelO_le (nts : Int → Int → List Char) :
    ∀ (o : OList), simpleO o = true → vfuelO o ≤ (writeEntries nts o).length + 1
  | .nil, _ => by
    show 0 ≤ ([] : List Char).length + 1
    simp
  | .cons k v .nil, h => by
    have hv : simpleV v = true := by
      simp only [simpleO, Bool.and_eq_true] at h
      exact h.1
    have h1 := vfuelV_le nts v hv
    show 1 + max (vfuelV v) (vfuelO .nil) ≤
      (writeJString k.data ++ ':' :: writeValue nts v).length + 1
    have : vfuelO .nil = 0 := rfl
    rw [this]
    simp only [List.length_append, List.length_cons]
    omega
  | .cons k v (.cons k2 v2 t2), h => by
    simp only [simpleO, Bool.and_eq_true] at h
    have h1 := vfuelV_le nts v h.1
    have h2 := vfuelO_le nts (.cons k2 v2 t2) (by simp [simpleO]; tauto)
    show 1 + max (vfuelV v) (vfuelO (.cons k2 v2 t2)) ≤
      (writeJString k.data ++ ':' :: writeValue nts v ++
        ',' :: writeEntries nts (.cons k2 v2 t2)).length + 1
    simp only [List.length_append, List.length_cons]
    omega
end

theorem vfuelV_pos (v : Value) : 1 ≤ vfuelV v := by
  cases v <;> simp [vfuelV]

theorem parseValueF_array_eq (f : Nat) (opts : Options) (t : List Char) :
    parseValueF (f+1) opts ('[' :: t) =
      (match skipWs t with
       | ']' :: t2 => .ok (.array .nil, t2)
       | s1 => (parseArrElemsF f opts s1).map (fun p => (.array p.1, p.2))) := by
  rw [parseValueF, skipWs_not _ _ (by decide)]
  simp

theorem parseValueF_obj_eq (f : Nat) (opts : Options) (t : List Char) :
    parseValueF (f+1) opts ('\x7b' :: t) =
      (match skipWs t with
       | b :: t2 =>
         if b = '\x7d' then .ok (.object .nil, t2)
         else (parseObjEntriesF f opts .nil (b :: t2)).map (fun p => (.object p.1, p.2))
       | [] => (parseObjEntriesF f opts .nil []).map (fun p => (.object p.1, p.2))) := by
  rw [parseValueF, skipWs_not _ _ (by decide)]
  simp

theorem skipWs_colon (t : List Char) : skipWs (':' :: t) = ':' :: t :=
  skipWs_not _ _ (by decide)

theorem skipWs_comma (t : List Char) : skipWs (',' :: t) = ',' :: t :=
  skipWs_not _ _ (by decide)

theorem skipWs_rbrack (t : List Char) : skipWs (']' :: t) = ']' :: t :=
  skipWs_not _ _ (by decide)

theorem skipWs_rbrace (t : List Char) : skipWs ('\x7d' :: t) = '\x7d' :: t :=
  skipWs_not _ _ (by decide)

theorem skipWs_quote (t : List Char) : skipWs ('"' :: t) = '"' :: t :=
  skipWs_not _ _ (by decide)

mutual
/-- Parsing the serialized form of a simple value, followed by any stop
character, recovers the value and leaves the stop character unread. -/
theorem roundV (nts : Int → Int → List Char) :
    ∀ (v : Value) (f : Nat) (r : List Char), simpleV v = true → vfuelV v ≤ f →
      isStop r = true →
      parseValueF f defaultOptions (writeValue nts v ++ r) = .ok (v, r)
  | v, 0, _, _, hf, _ => by
    exfalso
    have := vfuelV_pos v
    omega
  | .null, f+1, r, _, _, _ => parseValueF_null f _ r
  | .boolean true, f+1, r, _, _, _ => parseValueF_true f _ r
  | .boolean false, f+1, r, _, _, _ => parseValueF_false f _ r
  | .number _ _, _+1, _, hs, _, _ => by simp [simpleV] at hs
  | .bigInteger _, _+1, _, hs, _, _ => by simp [simpleV] at hs
  | .decimal _, _+1, _, hs, _, _ => by simp [simpleV] at hs
  | .safeInteger n, f+1, r, hs, _, hr =>
    parseValueF_int f defaultOptions rfl n
      (by simpa [simpleV, decide_eq_true_eq] using hs) hr
  | .string s, f+1, r, _, _, _ => by
    have h := parseValueF_string f defaultOptions s.data r
    rw [show String.mk s.data = s from rfl] at h
    exact h
  | .array .nil, f+1, r, _, _, _ => by
    show parseValueF (f+1) defaultOptions ('[' :: ']' :: r) = .ok (.array .nil, r)
    rw [parseValueF_array_eq, skipWs_rbrack]
    rfl
  | .array (.cons v t), f+1, r, hs, hf, hr => by
    have hl : simpleV v = true ∧ simpleL t = true := by
      simpa [simpleV, simpleL, Bool.and_eq_true] using hs
    obtain ⟨c, cs, hh, hws, hnb⟩ := writeValue_head nts v hl.1
    obtain ⟨X, hX⟩ : ∃ X, writeElems nts (.cons v t) = c :: X := by
      cases t with
      | nil => exact ⟨cs, hh⟩
      | cons v2 t2 =>
        refine ⟨cs ++ ',' :: writeElems nts (.cons v2 t2), ?_⟩
        show writeValue nts v ++ ',' :: writeElems nts (.cons v2 t2) = _
        rw [hh]
        rfl
    have hrest := roundL nts (.cons v t) f r (by simpa [simpleV] using hs)
      (by intro hx; exact VList.noConfusion hx)
      (by simp only [vfuelV] at hf; omega) hr
    have hass : writeValue nts (.array (.cons v t)) ++ r
        = '[' :: (writeElems nts (.cons v t) ++ ']' :: r) := by
      show '[' :: ((writeElems nts (.cons v t) ++ [']']) ++ r) = _
      rw [List.append_assoc]
      rfl
    rw [hass, parseValueF_array_eq, hX, List.cons_append, skipWs_not _ _ hws]
    split
    · rename_i t2 heq
      exfalso
      have hcr : c = ']' := by
        have := congrArg (fun l => l.head?) heq
        simpa using this
      exact hnb hcr
    · rw [← List.cons_append, ← hX, hrest]
      rfl
  | .object .nil, f+1, r, _, _, _ => by
    show parseValueF (f+1) defaultOptions ('\x7b' :: '\x7d' :: r) = .ok (.object .nil, r)
    rw [parseValueF_obj_eq, skipWs_rbrace]
    rfl
  | .object (.cons k v t), f+1, r, hs, hf, hr => by
    have hwv : jsOrderedKeys (okeys (.cons k v t)) = true ∧ simpleO (.cons k v t) = true := by
      simpa [simpleV, Bool.and_eq_true] using hs
    obtain ⟨X, hX⟩ : ∃ X, writeEntries nts (.cons k v t) = '"' :: X := by
      cases t with
      | nil => exact ⟨(escBody k.data ++ ['"']) ++ ':' :: writeValue nts v, rfl⟩
      | cons k2 v2 t2 =>
        exact ⟨(escBody k.data ++ ['"']) ++ ':' :: writeValue nts v ++
          ',' :: writeEntries nts (.cons k2 v2 t2), rfl⟩
    have hrest := roundO nts (.cons k v t) .nil f r hwv.2
      (by intro hx; exact OList.noConfusion hx)
      (by simp only [vfuelV] at hf; omega)
      hwv.1
    have hrest2 : Except.map (fun p => ((Value.object p.1 : Value), p.2))
        (parseObjEntriesF f defaultOptions .nil ('"' :: (X ++ '\x7d' :: r)))
        = .ok (.object (.cons k v t), r) := by
      rw [← List.cons_append, ← hX, hrest]
      rfl
    have hass : writeValue nts (.object (.cons k v t)) ++ r
        = '\x7b' :: (writeEntries nts (.cons k v t) ++ '\x7d' :: r) := by
      show '\x7b' :: ((writeEntries nts (.cons k v t) ++ ['\x7d']) ++ r) = _
      rw [List.append_assoc]
      rfl
    rw [hass, parseValueF_obj_eq, hX, List.cons_append, skipWs_quote]
    exact hrest2

/-- Parsing the serialized elements of a nonempty simple array, followed by
the closing bracket, recovers the element list. -/
theorem roundL (nts : Int → Int → List Char) :
    ∀ (l : VList) (f : Nat) (r : List Char), simpleL l = true → l ≠ .nil →
      vfuelL l ≤ f → isStop r = true →
      parseArrElemsF f defaultOptions (writeElems nts l ++ ']' :: r) = .ok (l, r)
  | .nil, _, _, _, hnil, _, _ => absurd rfl hnil
  | .cons _ _, 0, _, _, _, hf, _ => by
    exfalso
    simp only [vfuelL] at hf
    omega
  | .cons v .nil, f+1, r, hs, _, hf, hr => by
    have hv : simpleV v = true := by
      simp only [simpleL, Bool.and_eq_true] at hs
      exact hs.1
    have hfv : vfuelV v ≤ f := by
      simp only [vfuelL] at hf
      omega
    have h1 := roundV nts v f (']' :: r) hv hfv (by rfl)
    show parseArrElemsF (f+1) defaultOptions (writeValue nts v ++ ']' :: r)
      = .ok (.cons v .nil, r)
    rw [parseArrElemsF, h1]
    simp [skipWs_rbrack]
  | .cons v (.cons v2 t2), f+1, r, hs, _, hf, hr => by
    simp only [simpleL, Bool.and_eq_true] at hs
    have hfv : vfuelV v ≤ f ∧ vfuelL (.cons v2 t2) ≤ f := by
      simp only [vfuelL] at hf ⊢
      omega
    have hsub : simpleL (.cons v2 t2) = true := by
      simp only [simpleL, Bool.and_eq_true]
      tauto
    have h1 := roundV nts v f (',' :: (writeElems nts (.cons v2 t2) ++ ']' :: r))
      hs.1 hfv.1 (by rfl)
    have hrest := roundL nts (.cons v2 t2) f r hsub
      (by intro hx; exact VList.noConfusion hx) hfv.2 hr
    obtain ⟨c2, cs2, hh2, hws2, _⟩ := writeValue_head nts v2 hs.2.1
    obtain ⟨X2, hX2⟩ : ∃ X, writeElems nts (.cons v2 t2) = c2 :: X := by
      cases t2 with
      | nil => exact ⟨cs2, hh2⟩
      | cons v3 t3 =>
        refine ⟨cs2 ++ ',' :: writeElems nts (.cons v3 t3), ?_⟩
        show writeValue nts v2 ++ ',' :: writeElems nts (.cons v3 t3) = _
        rw [hh2]
        rfl
    have hskip2 : skipWs (writeElems nts (.cons v2 t2) ++ ']' :: r)
        = writeElems nts (.cons v2 t2) ++ ']' :: r := by
      rw [hX2]
      exact skipWs_not _ _ hws2
    show parseArrElemsF (f+1) defaultOptions
      ((writeValue nts v ++ ',' :: writeElems nts (.cons v2 t2)) ++ ']' :: r)
      = .ok (.cons v (.cons v2 t2), r)
    have hass : (writeValue nts v ++ ',' :: writeElems nts (.cons v2 t2)) ++ ']' :: r
        = writeValue nts v ++ ',' :: (writeElems nts (.cons v2 t2) ++ ']' :: r) := by
      rw [List.append_assoc]
      rfl
    rw [hass, parseArrElemsF, h1]
    simp [skipWs_comma, hskip2, hrest]

/-- Parsing the serialized members of a nonempty simple object, followed by
the closing brace, assigns each pair in order; under the ECMAScript property
order invariant every key is new, so the result appends the pairs to the
accumulated object. -/
theorem roundO (nts : Int → Int → List Char) :
    ∀ (o : OList) (acc : OList) (f : Nat) (r : List Char), simpleO o = true → o ≠ .nil →
      vfuelO o ≤ f → jsOrderedKeys (okeys acc ++ okeys o) = true →
      parseObjEntriesF f defaultOptions acc (writeEntries nts o ++ '\x7d' :: r)
        = .ok (oappend acc o, r)
  | .nil, _, _, _, _, hnil, _, _ => absurd rfl hnil
  | .cons _ _ _, _, 0, _, _, _, hf, _ => by
    exfalso
    simp only [vfuelO] at hf
    omega
  | .cons k v .nil, acc, f+1, r, hs, _, hf, hw => by
    have hv : simpleV v = true := by
      simp only [simpleO, Bool.and_eq_true] at hs
      exact hs.1
    have hfv : vfuelV v ≤ f := by
      simp only [vfuelO] at hf
      omega
    have h1 := roundV nts v f ('\x7d' :: r) hv hfv (by rfl)
    obtain ⟨cv, csv, hhv, hwsv, _⟩ := writeValue_head nts v hv
    have hskipv : skipWs (writeValue nts v ++ '\x7d' :: r)
        = writeValue nts v ++ '\x7d' :: r := by
      rw [hhv]
      exact skipWs_not _ _ hwsv
    have hset : setProp acc (String.mk k.data) v = oappend acc (.cons k v .nil) :=
      setProp_append acc k v [] false none (by rw [jsOrderedKeys] at hw; exact hw)
    show parseObjEntriesF (f+1) defaultOptions acc
      ((writeJString k.data ++ ':' :: writeValue nts v) ++ '\x7d' :: r)
      = .ok (oappend acc (.cons k v .nil), r)
    have hass : (writeJString k.data ++ ':' :: writeValue nts v) ++ '\x7d' :: r
        = writeJString k.data ++ (':' :: (writeValue nts v ++ '\x7d' :: r)) := by
      rw [List.append_assoc]
      rfl
    rw [hass, parseObjEntriesF, parseStrLit_write]
    simp [skipWs_colon, expectChar, hskipv, h1, hset, skipWs_rbrace]
  | .cons k v (.cons k2 v2 t2), acc, f+1, r, hs, _, hf, hw => by
    simp only [simpleO, Bool.and_eq_true] at hs
    have hfv : vfuelV v ≤ f ∧ vfuelO (.cons k2 v2 t2) ≤ f := by
      simp only [vfuelO] at hf ⊢
      omega
    have hsub : simpleO (.cons k2 v2 t2) = true := by
      simp only [simpleO, Bool.and_eq_true]
      tauto
    have h1 := roundV nts v f
      (',' :: (writeEntries nts (.cons k2 v2 t2) ++ '\x7d' :: r)) hs.1 hfv.1 (by rfl)
    obtain ⟨cv, csv, hhv, hwsv, _⟩ := writeValue_head nts v hs.1
    have hskipv : skipWs (writeValue nts v ++
        ',' :: (writeEntries nts (.cons k2 v2 t2) ++ '\x7d' :: r))
        = writeValue nts v ++
          ',' :: (writeEntries nts (.cons k2 v2 t2) ++ '\x7d' :: r) := by
      rw [hhv]
      exact skipWs_not _ _ hwsv
    have hset : setProp acc (String.mk k.data) v = oappend acc (.cons k v .nil) :=
      setProp_append acc k v (okeys (.cons k2 v2 t2)) false none
        (by rw [jsOrderedKeys] at hw; exact hw)
    have hwnext : jsOrderedKeys (okeys (oappend acc (.cons k v .nil)) ++
        okeys (.cons k2 v2 t2)) = true := by
      rw [okeys_oappend]
      simpa [okeys, List.append_assoc] using hw
    have hrest := roundO nts (.cons k2 v2 t2) (oappend acc (.cons k v .nil)) f r hsub
      (by intro hx; exact OList.noConfusion hx) hfv.2 hwnext
    obtain ⟨XE, hXE⟩ : ∃ X, writeEntries nts (.cons k2 v2 t2) = '"' :: X := by
      cases t2 with
      | nil => exact ⟨(escBody k2.data ++ ['"']) ++ ':' :: writeValue nts v2, rfl⟩
      | cons k3 v3 t3 =>
        exact ⟨(escBody k2.data ++ ['"']) ++ ':' :: writeValue nts v2 ++
          ',' :: writeEntries nts (.cons k3 v3 t3), rfl⟩
    have hskipE : skipWs (writeEntries nts (.cons k2 v2 t2) ++ '\x7d' :: r)
        = writeEntries nts (.cons k2 v2 t2) ++ '\x7d' :: r := by
      rw [hXE]
      exact skipWs_quote _
    show parseObjEntriesF (f+1) defaultOptions acc
      ((writeJString k.data ++ ':' :: writeValue nts v ++
        ',' :: writeEntries nts (.cons k2 v2 t2)) ++ '\x7d' :: r)
      = .ok (oappend acc (.cons k v (.cons k2 v2 t2)), r)
    have hass : (writeJString k.data ++ ':' :: writeValue nts v ++
        ',' :: writeEntries nts (.cons k2 v2 t2)) ++ '\x7d' :: r
        = writeJString k.data ++ (':' :: (writeValue nts v ++
          ',' :: (writeEntries nts (.cons k2 v2 t2) ++ '\x7d' :: r))) := by
      simp [List.append_assoc]
    rw [hass, parseObjEntriesF, parseStrLit_write]
    simp [skipWs_colon, skipWs_comma, expectChar, hskipv, h1, hset, hskipE, hrest,
      oappend_assoc, oappend]
end

/-- Parsing the stringified form of a simple host value graph returns the
graph unchanged. -/
theorem parse_stringify (nts : Int → Int → List Char) (v : Value) (h : simpleV v = true) :
    parseJson (stringifyModel nts v) defaultOptions = .ok v := by
  have hle : vfuelV v ≤ (writeValue nts v).length + 1 := by
    have := vfuelV_le nts v h
    omega
  have h1 := roundV nts v ((writeValue nts v).length + 1) [] h hle (by rfl)
  rw [List.append_nil] at h1
  have h2 : parseValueF ((String.mk (writeValue nts v)).data.length + 1) defaultOptions
      ((String.mk (writeValue nts v)).data) = .ok (v, []) := h1
  rw [stringifyModel, parseJson, h2]
  rfl

/-! ### Glue lemmas for the top-level parse function -/

theorem parseJson_eq_finish (s : String) (opts : Options) :
    parseJson s opts = finishParse (parseValueF (s.data.length + 1) opts s.data) := by
  rw [parseJson]
  cases hp : parseValueF (s.data.length + 1) opts s.data with
  | error e => rfl
  | ok p =>
    obtain ⟨v, rest⟩ := p
    cases hw : skipWs rest with
    | nil => simp [finishParse, hw]
    | cons c t => simp [finishParse, hw]

theorem parseJson_glue (s : String) (opts : Options) (v : Value) (rest : List Char)
    (h : parseValueF (s.data.length + 1) opts s.data = .ok (v, rest))
    (hws : skipWs rest = []) : parseJson s opts = .ok v := by
  rw [parseJson_eq_finish, h, finishParse, hws]

theorem parseJson_glue_trailing (s : String) (opts : Options) (v : Value) (rest : List Char)
    (h : parseValueF (s.data.length + 1) opts s.data = .ok (v, rest))
    (c : Char) (t : List Char) (hws : skipWs rest = c :: t) :
    parseJson s opts = .error .trailingCharacters := by
  rw [parseJson_eq_finish, h, finishParse, hws]

theorem parseJson_glue_error (s : String) (opts : Options) (e : ParseError)
    (h : parseValueF (s.data.length + 1) opts s.data = .error e) :
    parseJson s opts = .error e := by
  rw [parseJson_eq_finish, h, finishParse]

/-! ### Dispatch lemmas for parse_value -/

theorem parseValueF_number_dispatch (f : Nat) (opts : Options) {c : Char} (t : List Char)
    (hc : isDigitC c = true ∨ c = '-') :
    parseValueF (f+1) opts (c :: t) = parseNumberV opts (c :: t) := by
  rcases hc with hc | hc
  · rw [parseValueF, skipWs_not _ _ (ws_false_of_digit hc)]
    simp [digit_ne hc (show isDigitC 'n' = false from by decide),
      digit_ne hc (show isDigitC 't' = false from by decide),
      digit_ne hc (show isDigitC 'f' = false from by decide),
      digit_ne hc (show isDigitC '"' = false from by decide),
      digit_ne hc (show isDigitC '[' = false from by decide),
      digit_ne hc (show isDigitC ('\x7b') = false from by decide),
      hc]
  · subst hc
    rw [parseValueF, skipWs_not _ _ (by decide)]
    simp

theorem parseValueF_quote (f : Nat) (opts : Options) (t : List Char) :
    parseValueF (f+1) opts ('"' :: t) =
      (parseStrBody t).map (fun p => (.string (String.mk p.1), p.2)) := by
  rw [parseValueF, skipWs_quote]
  simp

/-! ### Number-scan lemmas for fractional literals -/

theorem scanNum_dot (cs : List Char) :
    scanNum ('.' :: cs) false false =
      ('.' :: (scanNum cs true false).1, (scanNum cs true false).2) := by
  rw [scanNum, scanNumA, scanNum]
  simp [show isDigitC '.' = false from by decide]

theorem scanNum_digits_pre (ds : List Char) (hds : allDigits ds = true)
    (cs : List Char) (hd he : Bool) :
    scanNum (ds ++ cs) hd he = (ds ++ (scanNum cs hd he).1, (scanNum cs hd he).2) := by
  induction ds with
  | nil => simp
  | cons c t ih =>
    have hc : isDigitC c = true := by
      have := (List.all_eq_true.mp hds) c (List.mem_cons_self c t)
      simpa using this
    have ht : allDigits t = true := by
      apply List.all_eq_true.mpr
      intro x hx
      exact (List.all_eq_true.mp hds) x (List.mem_cons_of_mem c hx)
    rw [List.cons_append, scanNum_digit hc, ih ht]
    simp

theorem scanNumberFull_decimal (ds fs : List Char) (hne : ds ≠ [])
    (h2 : allDigits ds = true) (h4 : allDigits fs = true)
    (r : List Char) (hr : isStop r = true) :
    scanNumberFull ((ds ++ '.' :: fs) ++ r) = (ds ++ '.' :: fs, true, false, r) := by
  obtain ⟨c, t, rfl⟩ : ∃ c t, ds = c :: t := by
    cases ds with
    | nil => exact absurd rfl hne
    | cons c t => exact ⟨c, t, rfl⟩
  have hc : isDigitC c = true := by
    have := (List.all_eq_true.mp h2) c (List.mem_cons_self c t)
    simpa using this
  have hq := scanNum_digits fs h4 hr true false
  have hp := scanNum_dot (fs ++ r)
  rw [hq] at hp
  simp only [] at hp
  have hpre := scanNum_digits_pre (c :: t) h2 ('.' :: (fs ++ r)) false false
  rw [hp] at hpre
  show scanNumberFull (c :: ((t ++ '.' :: fs) ++ r)) = (c :: t ++ '.' :: fs, true, false, r)
  rw [scanNumberFull, if_neg (digit_ne hc (by decide))]
  simp only [List.cons_append, List.append_assoc, List.singleton_append] at hpre ⊢
  exact hpre
/-! ### BigDecimal::from_str on fractional digit literals -/

theorem splitAtExpChar_none (l : List Char) (h : ∀ c ∈ l, ¬(c = 'e' ∨ c = 'E')) :
    splitAtExpChar l = (l, none) := by
  induction l with
  | nil => rfl
  | cons c t ih =>
    rw [splitAtExpChar, if_neg (h c (List.mem_cons_self c t))]
    simp [ih (fun x hx => h x (List.mem_cons_of_mem c hx))]

theorem splitAtDot_digits (ds fs : List Char) (h2 : allDigits ds = true) :
    splitAtDot (ds ++ '.' :: fs) = (ds, some fs) := by
  induction ds with
  | nil => simp [splitAtDot]
  | cons c t ih =>
    have hc : isDigitC c = true := by
      have := (List.all_eq_true.mp h2) c (List.mem_cons_self c t)
      simpa using this
    have ht : allDigits t = true := by
      apply List.all_eq_true.mpr
      intro x hx
      exact (List.all_eq_true.mp h2) x (List.mem_cons_of_mem c hx)
    rw [List.cons_append, splitAtDot, if_neg (digit_ne hc (by decide))]
    simp [ih ht]

theorem bigDecFromStr_decimal (ds fs : List Char) (h1 : ds ≠ [])
    (h2 : allDigits ds = true) (h4 : allDigits fs = true) :
    bigDecFromStr (ds ++ '.' :: fs)
      = some ⟨(decDigitsVal (ds ++ fs) : Int), (fs.length : Int)⟩ := by
  have hnoe : ∀ x ∈ ds ++ '.' :: fs, ¬(x = 'e' ∨ x = 'E') := by
    intro x hx hcon
    rcases List.mem_append.mp hx with hx | hx
    · have := (List.all_eq_true.mp h2) x hx
      rcases hcon with rfl | rfl <;> exact absurd this (by decide)
    · rcases List.mem_cons.mp hx with rfl | hx2
      · rcases hcon with h | h <;> exact absurd h (by decide)
      · have := (List.all_eq_true.mp h4) x hx2
        rcases hcon with rfl | rfl <;> exact absurd this (by decide)
  have hbne : (ds ++ '.' :: fs).isEmpty = false := by
    cases ds <;> rfl
  have hdall : allDigits (ds ++ fs) = true := by
    rw [allDigits, List.all_append]
    rw [allDigits] at h2 h4
    rw [h2, h4]
    rfl
  have hdne : ds ++ fs ≠ [] := by
    intro hcon
    rcases List.append_eq_nil.mp hcon with ⟨ha, _⟩
    exact h1 ha
  rw [bigDecFromStr, splitAtExpChar_none _ hnoe]
  simp [hbne, splitAtDot_digits ds fs h2, parseBigIntDec,
    signedDecVal_digits (ds ++ fs) hdne hdall]

/-! ### The \uXXXX escape and its hex digits -/

theorem hexDigitVal_hexDigitChar {d : Nat} (h : d < 16) :
    hexDigitVal? (hexDigitChar d) = some d := by
  have key : ∀ i : Fin 16, hexDigitVal? (hexDigitChar i.val) = some i.val := by decide
  exact key ⟨d, h⟩

theorem hexVal_hex4 {n : Nat} (h : n ≤ 65535) : hexVal? (hex4 n) = some n := by
  have h1 : n / 4096 % 16 < 16 := Nat.mod_lt _ (by omega)
  have h2 : n / 256 % 16 < 16 := Nat.mod_lt _ (by omega)
  have h3 : n / 16 % 16 < 16 := Nat.mod_lt _ (by omega)
  have h4 : n % 16 < 16 := Nat.mod_lt _ (by omega)
  rw [hex4]
  simp only [hexVal?, hexDigitVal_hexDigitChar h1, hexDigitVal_hexDigitChar h2,
    hexDigitVal_hexDigitChar h3, hexDigitVal_hexDigitChar h4, List.length]
  refine congrArg some ?_
  norm_num
  omega

theorem parseHexU32_hex4 {n : Nat} (h : n ≤ 65535) : parseHexU32 (hex4 n) = some n := by
  have h1 : n / 4096 % 16 < 16 := Nat.mod_lt _ (by omega)
  have hmin : ∀ i : Fin 16, hexDigitChar i.val ≠ '-' ∧ hexDigitChar i.val ≠ '+' := by decide
  have hv := hexVal_hex4 h
  rw [hex4] at hv
  rw [parseHexU32, hex4, splitSign]
  rw [if_neg (hmin ⟨_, h1⟩).1, if_neg (hmin ⟨_, h1⟩).2]
  simp [hv, show n < 4294967296 from by omega]
/-! ### Claim C1 -/

/-- C1: for every pure integer literal (an optional minus sign and digits,
no fractional part or exponent), parse emits a SafeInteger exactly when
always_parse_as_big is not enabled and the value's magnitude is at most
9007199254740991 = 2^53 - 1, and otherwise a BigInteger of the same
value. -/
theorem c1_integer_classification (opts : Options) (neg : Bool) (ds : List Char)
    (h1 : ds ≠ []) (h2 : allDigits ds = true) :
    parseJson (String.mk (if neg then '-' :: ds else ds)) opts =
      .ok (let v : Int := if neg then -(decDigitsVal ds : Int) else (decDigitsVal ds : Int)
           if isSomeAndTrue opts.alwaysParseAsBig = false ∧ v.natAbs ≤ 9007199254740991
           then .safeInteger v else .bigInteger v) := by
  obtain ⟨c, t, rfl⟩ : ∃ c t, ds = c :: t := by
    cases ds with
    | nil => exact absurd rfl h1
    | cons c t => exact ⟨c, t, rfl⟩
  have hc : isDigitC c = true := by
    have := (List.all_eq_true.mp h2) c (List.mem_cons_self c t)
    simpa using this
  have hp := @parseNumber_pure_int opts neg (c :: t) h1 h2 [] rfl
  rw [List.append_nil] at hp
  obtain ⟨c0, t0, hL, hc0⟩ :
      ∃ c0 t0, (if neg then '-' :: c :: t else c :: t) = c0 :: t0 ∧
        (isDigitC c0 = true ∨ c0 = '-') := by
    cases neg with
    | true => exact ⟨'-', c :: t, rfl, Or.inr rfl⟩
    | false => exact ⟨c, t, rfl, Or.inl hc⟩
  apply parseJson_glue _ _ _ []
  · have hdata : (String.mk (if neg then '-' :: c :: t else c :: t)).data = c0 :: t0 := hL
    rw [hdata, parseValueF_number_dispatch (c0 :: t0).length opts t0 hc0, ← hL, hp]
    by_cases hcond : isSomeAndTrue opts.alwaysParseAsBig = false ∧
        (if neg then -(decDigitsVal (c :: t) : Int) else (decDigitsVal (c :: t) : Int)).natAbs
          ≤ 9007199254740991 <;>
      simp [hcond]
  · rfl

/-- C1 witness: the three boundary instances named by the claim. -/
theorem c1_witness :
    ("9007199254740991".data ≠ [] ∧ allDigits "9007199254740991".data = true) ∧
    parseJson (String.mk "9007199254740991".data) defaultOptions
      = .ok (.safeInteger 9007199254740991) ∧
    parseJson (String.mk "9007199254740992".data) defaultOptions
      = .ok (.bigInteger 9007199254740992) ∧
    parseJson (String.mk "1".data) ⟨some true, none, none⟩ = .ok (.bigInteger 1) :=
  ⟨⟨by decide, by decide⟩,
   (c1_integer_classification defaultOptions false "9007199254740991".data
     (by decide) (by decide)).trans (by rfl),
   (c1_integer_classification defaultOptions false "9007199254740992".data
     (by decide) (by decide)).trans (by rfl),
   (c1_integer_classification ⟨some true, none, none⟩ false "1".data
     (by decide) (by decide)).trans (by rfl)⟩
/-! ### Claim C2 -/

/-- C3: for every host value graph containing only the Null, Boolean,
String, SafeInteger, Array and Object variants (with the representation
invariants reachable host graphs have: safe integers within 2^53 - 1 and
object keys distinct in ECMAScript own-property order), parsing the
stringified text returns the graph unchanged, structurally equal and
order-preserving; the nts parameter supplies the host's Number::toString,
which such graphs never use. -/
theorem c3_round_trip (nts : Int → Int → List Char) (v : Value) (h : simpleV v = true) :
    parseJson (stringifyModel nts v) defaultOptions = .ok v :=
  parse_stringify nts v h

/-- C3 witness: the round trip at a concrete graph exercising an object, an
array and every simple leaf variant. -/
theorem c3_witness :
    simpleV exampleGraph = true ∧
    parseJson (stringifyModel (fun _ _ => []) exampleGraph) defaultOptions
      = .ok exampleGraph :=
  ⟨by rfl, c3_round_trip (fun _ _ => []) exampleGraph (by rfl)⟩

/-! ### Claim C4 -/

/-- C4 counterexample: the escape \uD800 carries an unpaired surrogate
half; the claim says it is passed through as-is into the resulting string,
but the parse of "\uD800" fails with InvalidEscapeSequence('u'), because
char::from_u32 rejects every surrogate code point. -/
theorem c4_unicode_escape_counterexample :
    parseJson (String.mk ['"', '\\', 'u', 'D', '8', '0', '0', '"']) defaultOptions
      = .error (.invalidEscapeSequence 'u') := by
  rfl

/-- C4 (amended): a \uXXXX escape with exactly 4 hex digits decodes to the
single Unicode scalar value it names when char::from_u32 accepts the code
(every code point below 0xD800 or above 0xDFFF); a surrogate code unit
0xD800-0xDFFF is not passed through but rejected, the parse failing with
InvalidEscapeSequence('u'). -/
theorem c4_unicode_escape (n : Nat) (hn : n ≤ 65535) :
    parseJson (String.mk ('"' :: '\\' :: 'u' :: (hex4 n ++ ['"']))) defaultOptions
      = (match charFromU32 n with
         | some ch => .ok (.string (String.mk [ch]))
         | none => .error (.invalidEscapeSequence 'u')) := by
  have hdata : (String.mk ('"' :: '\\' :: 'u' :: (hex4 n ++ ['"']))).data
      = '"' :: '\\' :: 'u' :: (hex4 n ++ ['"']) := rfl
  have hph := parseHexU32_hex4 hn
  obtain ⟨a, b, c2, d2, hx⟩ : ∃ a b c2 d2, hex4 n = [a, b, c2, d2] := ⟨_, _, _, _, rfl⟩
  rw [hx] at hph
  cases hch : charFromU32 n with
  | some ch =>
    have hu : parseUnicode (hex4 n ++ ['"']) = .ok ([ch], []) := by
      rw [hx]
      show parseUnicode (a :: b :: c2 :: d2 :: ['"']) = _
      simp [parseUnicode, hph, hch, parseStrBody_quote, Except.map]
    apply parseJson_glue _ _ _ []
    · rw [hdata, parseValueF_quote]
      simp [parseStrBody, parseEscape, hu, Except.map]
    · rfl
  | none =>
    apply parseJson_glue_error
    have hu : parseUnicode (hex4 n ++ ['"']) = .error (.invalidEscapeSequence 'u') := by
      rw [hx]
      show parseUnicode (a :: b :: c2 :: d2 :: ['"']) = _
      simp [parseUnicode, hph, hch]
    rw [hdata, parseValueF_quote]
    simp [parseStrBody, parseEscape, hu, Except.map]

/-- C4 witness: the escape A decodes to the single character A. -/
theorem c4_witness :
    (65 ≤ 65535) ∧
    parseJson (String.mk ('"' :: '\\' :: 'u' :: (hex4 65 ++ ['"']))) defaultOptions
      = .ok (.string (String.mk ['A'])) :=
  ⟨by decide, (c4_unicode_escape 65 (by decide)).trans (by rfl)⟩
/-! ### Claim C5 -/

/-- C5: assigning a duplicate key with set_named_property keeps the key's
original enumeration position and overwrites its value (for any ordered
object, key already present, and new value); and in the claim's concrete
instance, parsing the duplicate-key object text yields the object holding
the last value for "a" in the originally-first position, whose stringified
form contains "a" exactly once, with value 3, before "b". -/
theorem c5_object_order (l : OList) (k : String) (v : Value)
    (h1 : jsOrderedKeys (okeys l) = true) (h2 : (olookup l k).isSome = true) :
    (okeys (setProp l k v) = okeys l ∧ olookup (setProp l k v) k = some v) ∧
    parseJson (String.mk dupKeyText) defaultOptions
      = .ok (.object (.cons "a" (.safeInteger 3) (.cons "b" (.safeInteger 2) .nil))) ∧
    stringifyModel (fun _ _ => [])
        (.object (.cons "a" (.safeInteger 3) (.cons "b" (.safeInteger 2) .nil)))
      = String.mk dupKeyOutText :=
  ⟨setProp_existing l k v h1 h2, by rfl, by rfl⟩

/-- C5 witness: the duplicate assignment of the claim's example, key "a"
receiving value 3 in an object already holding "a" then "b". -/
theorem c5_witness :
    (jsOrderedKeys (okeys (OList.cons "a" (.safeInteger 1)
        (.cons "b" (.safeInteger 2) .nil))) = true ∧
     (olookup (OList.cons "a" (.safeInteger 1) (.cons "b" (.safeInteger 2) .nil))
        "a").isSome = true) ∧
    (okeys (setProp (OList.cons "a" (.safeInteger 1) (.cons "b" (.safeInteger 2) .nil))
        "a" (.safeInteger 3))
       = okeys (OList.cons "a" (.safeInteger 1) (.cons "b" (.safeInteger 2) .nil)) ∧
     olookup (setProp (OList.cons "a" (.safeInteger 1) (.cons "b" (.safeInteger 2) .nil))
        "a" (.safeInteger 3)) "a"
       = some (.safeInteger 3)) :=
  ⟨⟨by decide, by decide⟩,
   (c5_object_order (OList.cons "a" (.safeInteger 1) (.cons "b" (.safeInteger 2) .nil))
     "a" (.safeInteger 3) (by decide) (by decide)).1⟩

/-! ### Claim C6 -/

/-- C6: Decimal arithmetic is exact in base 10: from_str("0.1") plus
from_str("0.2") compares equal to from_str("0.3") under compared_to, and
from_str("10") divided-to-integer-by from_str("3") is exactly the decimal
3, which compares equal to from_str("3"). -/
theorem c6_decimal_exactness :
    bigDecFromStr "0.1".data = some ⟨1, 1⟩ ∧
    bigDecFromStr "0.2".data = some ⟨2, 1⟩ ∧
    bigDecFromStr "0.3".data = some ⟨3, 1⟩ ∧
    comparedTo (bigPlus ⟨1, 1⟩ ⟨2, 1⟩) ⟨3, 1⟩ = 0 ∧
    bigDecFromStr "10".data = some ⟨10, 0⟩ ∧
    bigDecFromStr "3".data = some ⟨3, 0⟩ ∧
    dividedToIntegerBy ⟨10, 0⟩ ⟨3, 0⟩ = some ⟨3, 0⟩ ∧
    comparedTo ⟨3, 0⟩ ⟨3, 0⟩ = 0 :=
  ⟨by rfl, by rfl, by rfl, by rfl, by rfl, by rfl, by rfl, by rfl⟩

/-! ### Claim C7 -/

/-- C7: for every Decimal value embedded in a value graph, the stringifier
emits exactly the character sequence of the Decimal's intrinsic toString
conversion (the scientific-notation Display form), verbatim and unquoted:
the emitted text never starts with a quote. -/
theorem c7_decimal_stringify (nts : Int → Int → List Char) (d : BigDec) :
    writeValue nts (.decimal d) = (bigToString d).data ∧
    (writeValue nts (.decimal d)).head? ≠ some '"' := by
  refine ⟨rfl, ?_⟩
  show (sciNot d).head? ≠ some '"'
  rw [sciNot]
  by_cases h0 : d.intVal = 0
  · simp [h0]
  · obtain ⟨c, rest, hds⟩ : ∃ c rest, natDec d.intVal.natAbs = c :: rest := by
      cases hnd : natDec d.intVal.natAbs with
      | nil => exact absurd hnd (natDec_ne_nil _)
      | cons c rest => exact ⟨c, rest, rfl⟩
    have hc : isDigitC c = true := by
      have := natDec_all_digits d.intVal.natAbs c (by rw [hds]; exact List.mem_cons_self c rest)
      simpa using this
    have hcq : c ≠ '"' := digit_ne hc (by decide)
    by_cases hneg : d.intVal < 0
    · simp [h0, hneg, hds]
    · by_cases hr : rest.isEmpty
      · simp [h0, hneg, hds, hr, hcq]
      · simp [h0, hneg, hds, hr, hcq]

/-! ### Claim C8 -/

/-- C8: the claim says a native number that is neither integer-representable
nor a finite double (NaN, an infinity) makes Decimal construction fail with
an argument-validity error; the code instead always succeeds: BigNumber::new
first calls get_int64, napi_get_value_int64 succeeds on every JavaScript
number (NaN and the infinities convert to zero), so NaN constructs the
Decimal zero and the invalid-number error branch is unreachable. (The text
half of the claim holds: construction from invalid text fails.) -/
theorem c8_bignumber_constructor_nan :
    bigNumberNewFromNumber .nan = .ok ⟨0, 0⟩ ∧
    bigNumberNewFromNumber .posInfinity = .ok ⟨0, 0⟩ ∧
    bigNumberNewFromNumber .negInfinity = .ok ⟨0, 0⟩ ∧
    (∀ n : JsNumberValue, ∃ d : BigDec, bigNumberNewFromNumber n = .ok d) ∧
    bigNumberNewFromString (String.mk ['x']) = .error .invalidArg :=
  ⟨rfl, rfl, rfl, fun n => ⟨⟨napiGetInt64 n, 0⟩, rfl⟩, rfl⟩
/-! ### Claim C9 -/

/-- C9: the top-level contract: whenever parse_value consumes one value
leaving some rest, parse succeeds with that value when only whitespace
remains, and fails with TrailingCharacters when any non-whitespace
character remains; and the claim's three concrete instances hold: " 42 "
parses to SafeInteger 42, "42x" fails with TrailingCharacters, and the
empty input fails with UnexpectedEndOfInput. -/
theorem c9_top_level (s : String) (opts : Options) (v : Value) (rest : List Char)
    (h : parseValueF (s.data.length + 1) opts s.data = .ok (v, rest)) :
    (skipWs rest = [] → parseJson s opts = .ok v) ∧
    (∀ c t, skipWs rest = c :: t → parseJson s opts = .error .trailingCharacters) ∧
    parseJson (String.mk [' ', '4', '2', ' ']) defaultOptions = .ok (.safeInteger 42) ∧
    parseJson (String.mk ['4', '2', 'x']) defaultOptions = .error .trailingCharacters ∧
    parseJson (String.mk []) defaultOptions = .error .unexpectedEndOfInput :=
  ⟨fun hws => parseJson_glue s opts v rest h hws,
   fun c t hws => parseJson_glue_trailing s opts v rest h c t hws,
   by rfl, by rfl, by rfl⟩

/-- C9 witness: the input "42", whose single value consumes everything. -/
theorem c9_witness :
    parseValueF ((String.mk ['4', '2']).data.length + 1) defaultOptions
        (String.mk ['4', '2']).data = .ok (.safeInteger 42, []) ∧
    parseJson (String.mk ['4', '2']) defaultOptions = .ok (.safeInteger 42) :=
  ⟨by rfl,
   (c9_top_level (String.mk ['4', '2']) defaultOptions (.safeInteger 42) [] (by rfl)).1 rfl⟩

/-! ### Claim C10 -/

/-- C10: the parser's whitespace skipping drops any character for which
Rust's char::is_whitespace (Unicode White_Space) holds, not only the four
JSON whitespace characters; in particular U+00A0 no-break space and U+2028
line separator are skipped, and the input U+00A0 42 U+2028 parses
successfully. -/
theorem c10_unicode_whitespace (c : Char) (h : rustIsWhitespace c = true) (s : List Char) :
    skipWs (c :: s) = skipWs s ∧
    rustIsWhitespace ' ' = true ∧ rustIsWhitespace ' ' = true ∧
    parseJson (String.mk [' ', '4', '2', ' ']) defaultOptions
      = .ok (.safeInteger 42) := by
  refine ⟨?_, by decide, by decide, by rfl⟩
  rw [skipWs_cons]
  simp [h]

/-- C10 witness: the no-break space U+00A0 is skipped like any
whitespace. -/
theorem c10_witness :
    rustIsWhitespace ' ' = true ∧ skipWs [' '] = skipWs [] :=
  ⟨by decide, (c10_unicode_whitespace ' ' (by decide) []).1⟩
end Ohos
